import Mathlib

/-!
Verification development for the domino-oracle inference core
(double-six dominoes, 2v2, hidden-hand probability tracking).

The definitions below are a shallow embedding of the Python sources:
  - tiles.py        : Tile, generate_full_set
  - game_state.py   : Player, Play/Pass actions, GameState and its
                      apply_action state machine
  - constraints.py  : PlayerConstraints, ConstraintSet, propagation
  - inference.py    : exact enumeration and rejection-sampling marginals
  - engine.py       : OracleState composition and replay

Machine integers are modelled as Nat/Int (Python ints are unbounded),
floating point probabilities as exact rationals, and the numpy random
generator as an explicitly passed stream of shuffled index lists.
Fallible code returns Except.
-/

namespace Domino

/-- A domino tile: canonical unordered pair with 0 ≤ a ≤ b ≤ 6.
The Python constructor rejects anything else, so the Lean type carries
the validity proof (every value of type Tile is a legal tile). -/
def Tile : Type := {p : Nat × Nat // p.1 ≤ p.2 ∧ p.2 ≤ 6}

instance : DecidableEq Tile := by
  unfold Tile; infer_instance

/-- Lower pip value of a tile. -/
def Tile.a (t : Tile) : Nat := t.val.1

/-- Higher pip value of a tile. -/
def Tile.b (t : Tile) : Nat := t.val.2

/-- Tile.is_double from tiles.py: both ends equal. -/
def Tile.is_double (t : Tile) : Prop := t.a = t.b

instance (t : Tile) : Decidable t.is_double := by
  unfold Tile.is_double; infer_instance

/-- Tile.contains_value from tiles.py: a == v or b == v. -/
def Tile.contains_value (t : Tile) (v : Nat) : Prop := t.a = v ∨ t.b = v

instance (t : Tile) (v : Nat) : Decidable (t.contains_value v) := by
  unfold Tile.contains_value; infer_instance

/-- Tile.other_value from tiles.py: given one end value, the other end.
The Python version raises ValueError when v is on neither end; every
call site in the sources first checks contains_value, so that branch is
unreachable and is collapsed here to returning the a end. -/
def Tile.other_value (t : Tile) (v : Nat) : Nat :=
  if v = t.a then t.b else t.a

/-- Tile.pip_count from tiles.py: a + b. -/
def Tile.pip_count (t : Tile) : Nat := t.a + t.b

/-- Helper to write concrete tiles. -/
def mkTile (a b : Nat) (h : a ≤ b ∧ b ≤ 6) : Tile := ⟨(a, b), h⟩

/-- All 28 tiles in ascending (a, b) lexicographic order; this is the
iteration order of the Python generator and of sorted(...) on tiles. -/
def allTilesList : List Tile :=
  (List.range 7).flatMap (fun a =>
    (List.range 7).filterMap (fun b =>
      if h : a ≤ b ∧ b ≤ 6 then some ⟨(a, b), h⟩ else none))

/-- generate_full_set from tiles.py: the complete 28-tile double-six set. -/
def generate_full_set : Finset Tile := allTilesList.toFinset

/-- suits from tiles.py: all tiles of the full set containing a value. -/
def suits (value : Nat) : Finset Tile :=
  generate_full_set.filter (fun t => t.contains_value value)

/-- The four players in clockwise seating order (game_state.py). -/
inductive Player : Type
  | south
  | west
  | north
  | east
deriving DecidableEq, Repr

/-- Player.value: the enum value used for seat indexing. -/
def Player.value : Player → Nat
  | .south => 0
  | .west => 1
  | .north => 2
  | .east => 3

/-- The two teams in a 2v2 game (game_state.py). -/
inductive Team : Type
  | ns
  | we
deriving DecidableEq

/-- Actions: Play(player, tile, end) and Pass(player) from game_state.py.
The declared end field is named endValue because end is a Lean keyword. -/
inductive Action : Type
  | play (player : Player) (tile : Tile) (endValue : Nat)
  | pass (player : Player)
deriving DecidableEq

/-- The acting player of an action. -/
def Action.player : Action → Player
  | .play p _ _ => p
  | .pass p => p

/-- The distinct error conditions of GameState.apply_action.  In Python
these are all ValueError with different messages; the spec names them.
keyError models the uncaught KeyError that the constraints layer raises
when the engine looks up a game-state Player in the constraints-keyed
dict (see dictKey below). -/
inductive GameErr : Type
  | wrongTurn
  | tileMismatch
  | alreadyPlayed
  | illegalEnd
  | cannotPassFirst
  | invalidHand
  | keyError
deriving DecidableEq

/-- GameState from game_state.py: immutable snapshot of a round.
tiles_remaining is the 4-tuple of per-seat counts (Python ints, which
may go negative, hence Int). -/
structure GameState : Type where
  all_tiles : Finset Tile
  my_hand : Finset Tile
  history : List Action
  open_ends : Option (Nat × Nat)
  played_tiles : Finset Tile
  current_player : Player
  tiles_remaining : Int × Int × Int × Int
deriving DecidableEq

/-- Read the remaining count of a seat from the 4-tuple
(tiles_remaining[player.value]). -/
def remAt (r : Int × Int × Int × Int) : Player → Int
  | .south => r.1
  | .west => r.2.1
  | .north => r.2.2.1
  | .east => r.2.2.2

/-- Decrement one seat of the remaining-count tuple. -/
def decAt (r : Int × Int × Int × Int) : Player → Int × Int × Int × Int
  | .south => (r.1 - 1, r.2.1, r.2.2.1, r.2.2.2)
  | .west => (r.1, r.2.1 - 1, r.2.2.1, r.2.2.2)
  | .north => (r.1, r.2.1, r.2.2.1 - 1, r.2.2.2)
  | .east => (r.1, r.2.1, r.2.2.1, r.2.2.2 - 1)

/-- GameState.next_player: clockwise order south, west, north, east. -/
def GameState.next_player : Player → Player
  | .south => .west
  | .west => .north
  | .north => .east
  | .east => .south

/-- GameState.initial from game_state.py: validates a 7-tile hand.  The
subset check of the Python code is vacuous here because every Lean Tile
is a member of the full set; it is kept for fidelity. -/
def GameState.initial (my_hand : Finset Tile) : Except GameErr GameState :=
  if my_hand.card ≠ 7 then .error .invalidHand
  else if ¬ my_hand ⊆ generate_full_set then .error .invalidHand
  else .ok {
    all_tiles := generate_full_set
    my_hand := my_hand
    history := []
    open_ends := none
    played_tiles := ∅
    current_player := .south
    tiles_remaining := (7, 7, 7, 7) }

/-- GameState._apply_play from game_state.py (turn already checked). -/
def GameState.apply_play (s : GameState) (p : Player) (t : Tile)
    (e : Nat) : Except GameErr GameState :=
  if ¬ t.contains_value e then .error .tileMismatch
  else if t ∈ s.played_tiles then .error .alreadyPlayed
  else
    match s.open_ends with
    | none =>
        .ok { s with
          my_hand := if p = .south then s.my_hand \ {t} else s.my_hand
          history := s.history ++ [Action.play p t e]
          open_ends := some (t.a, t.b)
          played_tiles := s.played_tiles ∪ {t}
          current_player := GameState.next_player s.current_player
          tiles_remaining := decAt s.tiles_remaining p }
    | some (l, r) =>
        if e ≠ l ∧ e ≠ r then .error .illegalEnd
        else
          let nv := t.other_value e
          .ok { s with
            my_hand := if p = .south then s.my_hand \ {t} else s.my_hand
            history := s.history ++ [Action.play p t e]
            open_ends := if l = e then some (nv, r) else some (l, nv)
            played_tiles := s.played_tiles ∪ {t}
            current_player := GameState.next_player s.current_player
            tiles_remaining := decAt s.tiles_remaining p }

/-- GameState._apply_pass from game_state.py (turn already checked). -/
def GameState.apply_pass (s : GameState) (p : Player) :
    Except GameErr GameState :=
  match s.open_ends with
  | none => .error .cannotPassFirst
  | some _ =>
      .ok { s with
        history := s.history ++ [Action.pass p]
        current_player := GameState.next_player s.current_player }

/-- GameState.apply_action from game_state.py: checks the turn, then
dispatches to the play or pass handler. -/
def GameState.apply_action (s : GameState) (a : Action) :
    Except GameErr GameState :=
  if a.player ≠ s.current_player then .error .wrongTurn
  else
    match a with
    | .play p t e => s.apply_play p t e
    | .pass p => s.apply_pass p

/-- GameState.unknown_tiles: all_tiles - my_hand - played_tiles. -/
def GameState.unknown_tiles (s : GameState) : Finset Tile :=
  (s.all_tiles \ s.my_hand) \ s.played_tiles

/-- GameState.is_game_over: some seat count is 0, or the last four
actions are all passes. -/
def GameState.is_game_over (s : GameState) : Prop :=
  (remAt s.tiles_remaining .south = 0 ∨ remAt s.tiles_remaining .west = 0 ∨
   remAt s.tiles_remaining .north = 0 ∨ remAt s.tiles_remaining .east = 0) ∨
  (4 ≤ s.history.length ∧
    ∀ a ∈ s.history.drop (s.history.length - 4), ∃ p, a = Action.pass p)

/-- GameState.player_team: south and north are NS, west and east WE. -/
def GameState.player_team : Player → Team
  | .south => .ns
  | .north => .ns
  | .west => .we
  | .east => .we

/-- Reachable game states: the initial state of a valid hand followed by
any sequence of successful apply_action calls. -/
inductive ReachableGS : GameState → Prop
  | init (h : Finset Tile) (s : GameState)
      (hs : GameState.initial h = .ok s) : ReachableGS s
  | step (s s' : GameState) (a : Action) (hr : ReachableGS s)
      (hs : s.apply_action a = .ok s') : ReachableGS s'

/-- The three opponents whose hands are unknown (constraints.py keys its
player_constraints dict on exactly these). -/
inductive Opp : Type
  | west
  | north
  | east
deriving DecidableEq, Repr

/-- The OPPONENTS tuple from constraints.py, in its iteration order. -/
def OPPONENTS : List Opp := [.west, .north, .east]

/-- The Player enumeration that constraints.py defines for itself — a
second, distinct enum from the game-state Player.  Python enum members
compare by identity, so a member of this enum is never equal to a
member of the game-state enum, even for the same seat. -/
inductive CPlayer : Type
  | south
  | west
  | north
  | east
deriving DecidableEq, Repr

/-- A player value handed to the constraints layer.  Python is
duck-typed here: constraints.py annotates its own Player, but engine.py
actually passes members of the game-state enum, and the tests pass
game-state members too.  Equality (and hence dict membership) across
the two enums is always false. -/
inductive PyPlayer : Type
  | fromGame (p : Player)
  | fromConstraints (p : CPlayer)
deriving DecidableEq

/-- Lookup of a player value among the keys of the player_constraints
dict, which are the three constraints.Player opponents.  Only a
constraints.Player opponent hits a key; constraints.Player.SOUTH is not
a key, and no game-state Player value ever is (identity comparison
across distinct enums). -/
def dictKey : PyPlayer → Option Opp
  | .fromConstraints .west => some .west
  | .fromConstraints .north => some .north
  | .fromConstraints .east => some .east
  | _ => none

/-- The helper _tiles_with_value from constraints.py. -/
def tiles_with_value (tiles : Finset Tile) (value : Nat) : Finset Tile :=
  tiles.filter (fun t => t.a = value ∨ t.b = value)

/-- PlayerConstraints from constraints.py. -/
structure PlayerConstraints : Type where
  candidate_tiles : Finset Tile
  tiles_remaining : Int
  eliminated_values : Finset Nat
deriving DecidableEq

/-- PlayerConstraints.remove_tile. -/
def PlayerConstraints.remove_tile (c : PlayerConstraints) (t : Tile) :
    PlayerConstraints :=
  { c with candidate_tiles := c.candidate_tiles \ {t} }

/-- PlayerConstraints.decrement_remaining. -/
def PlayerConstraints.decrement_remaining (c : PlayerConstraints) :
    PlayerConstraints :=
  { c with tiles_remaining := c.tiles_remaining - 1 }

/-- PlayerConstraints.eliminate_value: drop every candidate containing
the value and record the value as eliminated. -/
def PlayerConstraints.eliminate_value (c : PlayerConstraints) (v : Nat) :
    PlayerConstraints :=
  { c with
    candidate_tiles := c.candidate_tiles \ tiles_with_value c.candidate_tiles v
    eliminated_values := c.eliminated_values ∪ {v} }

/-- PlayerConstraints.set_candidates. -/
def PlayerConstraints.set_candidates (c : PlayerConstraints)
    (s : Finset Tile) : PlayerConstraints :=
  { c with candidate_tiles := s }

/-- ConstraintSet from constraints.py: the player_constraints dict has
exactly the three opponent keys, modelled as three fields. -/
structure ConstraintSet : Type where
  west : PlayerConstraints
  north : PlayerConstraints
  east : PlayerConstraints
  played_tiles : Finset Tile
  my_hand : Finset Tile
deriving DecidableEq

/-- Lookup in the player_constraints dict. -/
def ConstraintSet.pc (c : ConstraintSet) : Opp → PlayerConstraints
  | .west => c.west
  | .north => c.north
  | .east => c.east

/-- Update one entry of the player_constraints dict. -/
def ConstraintSet.setPc (c : ConstraintSet) : Opp → PlayerConstraints →
    ConstraintSet
  | .west, v => { c with west := v }
  | .north, v => { c with north := v }
  | .east, v => { c with east := v }

/-- ConstraintSet.initial: each opponent may hold any of the 21 unknown
tiles; the hand is validated exactly as in the Python code. -/
def ConstraintSet.initial (my_hand : Finset Tile) :
    Except GameErr ConstraintSet :=
  if my_hand.card ≠ 7 then .error .invalidHand
  else if ¬ my_hand ⊆ generate_full_set then .error .invalidHand
  else
    let unknown := generate_full_set \ my_hand
    let pc : PlayerConstraints :=
      { candidate_tiles := unknown, tiles_remaining := 7,
        eliminated_values := ∅ }
    .ok { west := pc, north := pc, east := pc,
          played_tiles := ∅, my_hand := my_hand }

/-- ConstraintSet.unknown_tiles: full set minus played minus hand. -/
def ConstraintSet.unknown_tiles (c : ConstraintSet) : Finset Tile :=
  (generate_full_set \ c.played_tiles) \ c.my_hand

/-- A player is determined when their candidate count equals their
remaining count (rule 1 of propagate). -/
def determined (p : PlayerConstraints) : Prop :=
  (p.candidate_tiles.card : Int) = p.tiles_remaining

instance (p : PlayerConstraints) : Decidable (determined p) := by
  unfold determined; infer_instance

/-- The two opponents other than p, in the iteration order of the inner
q loop of propagate (west, north, east with p skipped). -/
def othersOf : Opp → Opp × Opp
  | .west => (.north, .east)
  | .north => (.west, .east)
  | .east => (.west, .north)

/-- Remove a determined set from one opponent's candidates, reporting
whether the candidate set actually changed (the in-place dict update of
the inner q loop of propagate). -/
def ConstraintSet.rmFrom (c : ConstraintSet) (det : Finset Tile)
    (q : Opp) : ConstraintSet × Bool :=
  let old_cands := (c.pc q).candidate_tiles
  let new_cands := old_cands \ det
  if new_cands ≠ old_cands then
    (c.setPc q ((c.pc q).set_candidates new_cands), true)
  else (c, false)

/-- One iteration of the rule-1 body for a single player p: if p is
determined, p's candidates are removed from the two other opponents in
q-loop order; the Bool reports whether any candidate set changed. -/
def ConstraintSet.stepDet (c : ConstraintSet) (p : Opp) :
    ConstraintSet × Bool :=
  let cp := c.pc p
  if determined cp then
    let qs := othersOf p
    let r1 := c.rmFrom cp.candidate_tiles qs.1
    let r2 := r1.1.rmFrom cp.candidate_tiles qs.2
    (r2.1, r1.2 || r2.2)
  else (c, false)

/-- One full pass of the propagation loop body: rule 1 over the three
opponents in order.  Rule 2 of the Python source inspects unknown tiles
but modifies nothing (both branches are pass statements), so it is
omitted as the no-op it is. -/
def ConstraintSet.onePass (c : ConstraintSet) : ConstraintSet × Bool :=
  let r1 := c.stepDet .west
  let r2 := r1.1.stepDet .north
  let r3 := r2.1.stepDet .east
  (r3.1, r1.2 || r2.2 || r3.2)

/-- The bounded propagation loop: run up to the given number of passes,
stopping early after the first pass that changes nothing. -/
def ConstraintSet.propLoop : Nat → ConstraintSet → ConstraintSet
  | 0, c => c
  | n + 1, c =>
      let r := c.onePass
      if r.2 then ConstraintSet.propLoop n r.1 else r.1

/-- ConstraintSet.propagate: arc consistency to a fixed point, with the
safety cap of 50 iterations from the source. -/
def ConstraintSet.propagate (c : ConstraintSet) : ConstraintSet :=
  ConstraintSet.propLoop 50 c

/-- ConstraintSet.apply_play: remove the tile everywhere, move the tile
to played, then propagate.  The source decrements the player only when
the player value is in the dict (the check `player in new_pc`) and
shrinks the stored hand only when the player is identically
constraints.Player.SOUTH; both comparisons miss whenever the caller
passes a game-state Player, as engine.py and the tests do. -/
def ConstraintSet.apply_play (c : ConstraintSet) (player : PyPlayer)
    (tile : Tile) : ConstraintSet :=
  let c1 := (c.setPc .west (c.west.remove_tile tile))
  let c2 := (c1.setPc .north (c1.north.remove_tile tile))
  let c3 := (c2.setPc .east (c2.east.remove_tile tile))
  let c4 :=
    match dictKey player with
    | some o => c3.setPc o ((c3.pc o).decrement_remaining)
    | none => c3
  let c5 : ConstraintSet :=
    { c4 with
      played_tiles := c4.played_tiles ∪ {tile}
      my_hand := if player = .fromConstraints .south then c4.my_hand \ {tile}
                 else c4.my_hand }
  c5.propagate

/-- ConstraintSet.apply_pass: the passing opponent cannot hold any tile
containing either open-end value (deduplicated when equal), then
propagate.  Passing for the observer raises KeyError in the source and
is outside this function's domain, so the player is an opponent here. -/
def ConstraintSet.apply_pass (c : ConstraintSet) (o : Opp)
    (open_ends : Nat × Nat) : ConstraintSet :=
  let p1 := (c.pc o).eliminate_value open_ends.1
  let p2 := if open_ends.2 ≠ open_ends.1 then p1.eliminate_value open_ends.2
            else p1
  (c.setPc o p2).propagate

/-- The dict access new_pc[player] at the top of apply_pass, for an
arbitrary player value: it raises KeyError when the value is not one of
the three constraints.Player keys — in particular for every game-state
Player value, which is what engine.py passes. -/
def ConstraintSet.apply_pass_lookup (c : ConstraintSet) (player : PyPlayer)
    (open_ends : Nat × Nat) : Except GameErr ConstraintSet :=
  match dictKey player with
  | none => .error .keyError
  | some o => .ok (c.apply_pass o open_ends)

/-- Error conditions of the probability inference engine (inference.py,
all ValueError in Python).  negativeRemaining models the ValueError that
itertools.combinations raises on a negative count. -/
inductive InferErr : Type
  | tooManyUnknowns
  | noValidConfiguration
  | negativeRemaining
deriving DecidableEq

/-- The unknown tiles in ascending order, as sorted(unknown_set) yields
them in inference.py (Tile ordering is lexicographic on (a, b), which is
the order of allTilesList). -/
def ConstraintSet.sortedUnknown (c : ConstraintSet) : List Tile :=
  allTilesList.filter (fun t => t ∈ c.unknown_tiles)

/-- ProbabilityTable from inference.py: the tile axis (ordered unknown
tiles) and the probability matrix, indexed by opponent and tile
position.  Positions at or beyond the tile count hold 0. -/
structure ProbabilityTable : Type where
  tiles : List Tile
  probs : Opp → Nat → ℚ

/-- Per-opponent candidate list restricted to unknown tiles, as built by
the list comprehensions over tile_index in inference.py. -/
def ConstraintSet.candRestr (c : ConstraintSet) (o : Opp) : Finset Tile :=
  (c.pc o).candidate_tiles ∩ c.unknown_tiles

/-- Remaining count of an opponent as a natural number (inference uses
the counts as combination/slice sizes; negative counts are rejected
separately). -/
def ConstraintSet.remNat (c : ConstraintSet) (o : Opp) : Nat :=
  ((c.pc o).tiles_remaining).toNat

/-- All accepted configurations of exact_marginals, as the pair (tiles
of the first opponent, tiles of the second): the first opponent draws a
combination from their restricted candidates, the second from theirs
minus the first draw, and the leftover must have the third opponent's
size and lie in the third opponent's candidates. -/
def ConstraintSet.exactConfigs (c : ConstraintSet) :
    Finset (Finset Tile × Finset Tile) :=
  (((c.candRestr .west).powersetCard (c.remNat .west)) ×ˢ
    ((c.candRestr .north).powersetCard (c.remNat .north))).filter
    (fun q =>
      q.1 ∩ q.2 = ∅ ∧
      ((c.unknown_tiles \ q.1) \ q.2).card = c.remNat .east ∧
      (c.unknown_tiles \ q.1) \ q.2 ⊆ c.candRestr .east)

/-- The tile group a configuration assigns to an opponent. -/
def ConstraintSet.exactPart (c : ConstraintSet)
    (q : Finset Tile × Finset Tile) : Opp → Finset Tile
  | .west => q.1
  | .north => q.2
  | .east => (c.unknown_tiles \ q.1) \ q.2

/-- Number of accepted configurations (the total of exact_marginals). -/
def ConstraintSet.totalE (c : ConstraintSet) : Nat := c.exactConfigs.card

/-- Number of accepted configurations in which an opponent holds a
tile (the counts matrix of exact_marginals). -/
def ConstraintSet.countE (c : ConstraintSet) (o : Opp) (t : Tile) : Nat :=
  (c.exactConfigs.filter (fun q => t ∈ c.exactPart q o)).card

/-- exact_marginals from inference.py.  The unknown-count ceiling is
checked first; the enumeration then needs nonnegative counts (Python
raises from combinations otherwise); zero accepted configurations fail
in _build_probability_table. -/
def exact_marginals (c : ConstraintSet) :
    Except InferErr ProbabilityTable :=
  if 18 < c.unknown_tiles.card then .error .tooManyUnknowns
  else if (c.pc .west).tiles_remaining < 0 ∨
      (c.pc .north).tiles_remaining < 0 ∨
      (c.pc .east).tiles_remaining < 0 then .error .negativeRemaining
  else if c.totalE = 0 then .error .noValidConfiguration
  else .ok
    { tiles := c.sortedUnknown
      probs := fun o i =>
        match c.sortedUnknown[i]? with
        | some t => (c.countE o t : ℚ) / (c.totalE : ℚ)
        | none => 0 }

/-- Membership of a tile position in an opponent's candidate mask
(the candidate_masks index sets of monte_carlo_marginals). -/
def ConstraintSet.inMask (c : ConstraintSet) (o : Opp) (i : Nat) : Prop :=
  match c.sortedUnknown[i]? with
  | some t => t ∈ (c.pc o).candidate_tiles
  | none => False

instance (c : ConstraintSet) (o : Opp) (i : Nat) :
    Decidable (c.inMask o i) := by
  unfold ConstraintSet.inMask
  exact match c.sortedUnknown[i]? with
  | some _ => by infer_instance
  | none => by infer_instance

/-- The slice of a shuffled index list assigned to an opponent: the
shuffle is cut into consecutive runs sized by the remaining counts, in
opponent order. -/
def ConstraintSet.mcSlice (c : ConstraintSet) (perm : List Nat) :
    Opp → List Nat
  | .west => perm.take (c.remNat .west)
  | .north => (perm.drop (c.remNat .west)).take (c.remNat .north)
  | .east =>
      (perm.drop (c.remNat .west + c.remNat .north)).take (c.remNat .east)

/-- Acceptance test of one rejection-sampling trial: every index of each
opponent's slice lies in that opponent's candidate mask, and the final
offset (the sum of the remaining counts, accumulated as Python ints)
equals the number of unknown tiles.  Negative remaining counts make the
Python slicing wrap around; the claims below therefore assume
nonnegative counts, which every real game state has. -/
def ConstraintSet.mcAccept (c : ConstraintSet) (perm : List Nat) : Prop :=
  (∀ i ∈ c.mcSlice perm .west, c.inMask .west i) ∧
  (∀ i ∈ c.mcSlice perm .north, c.inMask .north i) ∧
  (∀ i ∈ c.mcSlice perm .east, c.inMask .east i) ∧
  (c.pc .west).tiles_remaining + (c.pc .north).tiles_remaining +
      (c.pc .east).tiles_remaining = (c.sortedUnknown.length : Int)

instance (c : ConstraintSet) (perm : List Nat) :
    Decidable (c.mcAccept perm) := by
  unfold ConstraintSet.mcAccept; infer_instance

/-- The accepted trials among a stream of shuffles. -/
def ConstraintSet.mcAccepted (c : ConstraintSet)
    (trials : List (List Nat)) : List (List Nat) :=
  trials.filter (fun p => decide (c.mcAccept p))

/-- Counts matrix of monte_carlo_marginals: for each accepted trial,
each index of an opponent's slice increments that opponent's cell. -/
def ConstraintSet.mcCount (c : ConstraintSet) (trials : List (List Nat))
    (o : Opp) (i : Nat) : Nat :=
  ((c.mcAccepted trials).map (fun p => (c.mcSlice p o).count i)).sum

/-- monte_carlo_marginals from inference.py, with the numpy generator
replaced by the explicit stream of shuffled index lists it would
produce: each trial shuffles the indices 0..n-1 of the sorted unknown
tiles.  Zero accepted trials fail in _build_probability_table. -/
def monte_carlo_marginals (c : ConstraintSet)
    (trials : List (List Nat)) : Except InferErr ProbabilityTable :=
  let accepted := (c.mcAccepted trials).length
  if accepted = 0 then .error .noValidConfiguration
  else .ok
    { tiles := c.sortedUnknown
      probs := fun o i => (c.mcCount trials o i : ℚ) / (accepted : ℚ) }

/-- The exact-enumeration threshold _EXACT_THRESHOLD from inference.py. -/
def EXACT_THRESHOLD : Nat := 15

/-- auto_marginals from inference.py: exact enumeration for at most 15
unknown tiles, rejection sampling otherwise. -/
def auto_marginals (c : ConstraintSet) (trials : List (List Nat)) :
    Except InferErr ProbabilityTable :=
  if c.unknown_tiles.card ≤ EXACT_THRESHOLD then exact_marginals c
  else monte_carlo_marginals c trials

/-- OracleState from engine.py: game state + constraints + optional
probability table. -/
structure OracleState : Type where
  game : GameState
  constraints : ConstraintSet
  probabilities : Option ProbabilityTable

/-- OracleState.initial from engine.py. -/
def OracleState.initial (my_hand : Finset Tile) :
    Except GameErr OracleState := do
  let g ← GameState.initial my_hand
  let c ← ConstraintSet.initial my_hand
  return { game := g, constraints := c, probabilities := none }

/-- OracleState.apply_action from engine.py: route the action through
the game state machine and the constraint engine (a non-observer pass
uses the pre-action open ends); probabilities are invalidated.  The
source asserts open_ends is not None for such a pass; the assert cannot
fire because the game transition already rejected a first-turn pass.
engine.py imports Player from game_state and passes action.player
straight into the constraints layer, whose dict is keyed by the other
Player enum: the play path therefore never decrements a constraint
count, and the non-observer pass path always raises KeyError (the
comparison action.player == Player.SOUTH is within one enum and works). -/
def OracleState.apply_action (s : OracleState) (a : Action) :
    Except GameErr OracleState := do
  let new_game ← s.game.apply_action a
  match a with
  | .play p t _ =>
      return { game := new_game,
               constraints := s.constraints.apply_play (.fromGame p) t,
               probabilities := none }
  | .pass p =>
      if p = .south then
        return { game := new_game, constraints := s.constraints,
                 probabilities := none }
      else
        match s.game.open_ends with
        | none => .error .cannotPassFirst
        | some oe => do
            let nc ← s.constraints.apply_pass_lookup (.fromGame p) oe
            return { game := new_game, constraints := nc,
                     probabilities := none }

/-- OracleState.compute_probabilities from engine.py: run auto dispatch
on the current constraints and store the table. -/
def OracleState.compute_probabilities (s : OracleState)
    (trials : List (List Nat)) : Except InferErr OracleState :=
  (auto_marginals s.constraints trials).map
    (fun pt => { s with probabilities := some pt })

/-- Apply a list of actions in order, stopping at the first error. -/
def OracleState.applyActions (s : OracleState) (actions : List Action) :
    Except GameErr OracleState :=
  actions.foldlM (fun st a => st.apply_action a) s

/-- Combined error type of the whole-game replay helper. -/
inductive OracleErr : Type
  | game (e : GameErr)
  | infer (e : InferErr)
deriving DecidableEq

/-- replay_game from engine.py: fresh state, all actions in order, then
probabilities. -/
def replay_game (my_hand : Finset Tile) (actions : List Action)
    (trials : List (List Nat)) : Except OracleErr OracleState :=
  match OracleState.initial my_hand with
  | .error e => .error (.game e)
  | .ok s0 =>
      match s0.applyActions actions with
      | .error e => .error (.game e)
      | .ok s =>
          match s.compute_probabilities trials with
          | .error e => .error (.infer e)
          | .ok s' => .ok s'

instance {ε α : Type} [DecidableEq ε] [DecidableEq α] :
    DecidableEq (Except ε α) := fun x y =>
  match x, y with
  | .error a, .error b =>
      if h : a = b then isTrue (by rw [h]) else
        isFalse (by intro hc; cases hc; exact h rfl)
  | .ok a, .ok b =>
      if h : a = b then isTrue (by rw [h]) else
        isFalse (by intro hc; cases hc; exact h rfl)
  | .error _, .ok _ => isFalse (by intro hc; cases hc)
  | .ok _, .error _ => isFalse (by intro hc; cases hc)

/-- Whether a pair of opponents has intersecting candidate sets. -/
def badPair (c : ConstraintSet) (x y : Opp) : Prop :=
  (c.pc x).candidate_tiles ∩ (c.pc y).candidate_tiles ≠ ∅

instance (c : ConstraintSet) (x y : Opp) : Decidable (badPair c x y) := by
  unfold badPair; infer_instance

/-- Number of intersecting opponent pairs; propagation strictly lowers
it on every pass that changes something, so it bounds the pass count. -/
def pairMeasure (c : ConstraintSet) : Nat :=
  (if badPair c .west .north then 1 else 0) +
  (if badPair c .west .east then 1 else 0) +
  (if badPair c .north .east then 1 else 0)

/-- The determined-player rule is at a fixed point: every determined
opponent's candidates are absent from every other opponent's set. -/
def FixPt (c : ConstraintSet) : Prop :=
  ∀ p q : Opp, p ≠ q → determined (c.pc p) →
    (c.pc p).candidate_tiles ∩ (c.pc q).candidate_tiles = ∅

/-- Shorthand for writing concrete tiles. -/
def T (a b : Nat) (h : a ≤ b ∧ b ≤ 6) : Tile := ⟨(a, b), h⟩

/-- The observer hand of the end-to-end scenario. -/
def c2hand : Finset Tile :=
  {T 0 1 (by decide), T 1 3 (by decide), T 2 5 (by decide),
   T 3 3 (by decide), T 4 6 (by decide), T 5 5 (by decide),
   T 6 6 (by decide)}

/-- The action list of the end-to-end scenario. -/
def c2actions : List Action :=
  [.play .south (T 3 3 (by decide)) 3,
   .pass .west,
   .play .north (T 3 6 (by decide)) 3,
   .play .east (T 2 6 (by decide)) 6]

/-- The result of replaying the end-to-end scenario through the engine. -/
def c2res : Except GameErr OracleState :=
  (OracleState.initial c2hand).bind (fun s => s.applyActions c2actions)

/-- Tiles A, B, C of the constructed chain-propagation scenario. -/
def tA : Tile := T 0 0 (by decide)

/-- Tile B of the chain-propagation scenario. -/
def tB : Tile := T 0 1 (by decide)

/-- Tile C of the chain-propagation scenario. -/
def tC : Tile := T 0 2 (by decide)

/-- The chain-propagation scenario: candidate sets and counts
given as A/1, A B/1, A B C/1 for west, north, east. -/
def c6cs : ConstraintSet :=
  { west := ⟨{tA}, 1, ∅⟩
    north := ⟨{tA, tB}, 1, ∅⟩
    east := ⟨{tA, tB, tC}, 1, ∅⟩
    played_tiles := ∅
    my_hand := ∅ }

/-- A late-game constraint set with three unknown tiles, one per
opponent, every opponent a candidate for each: used to exercise both
probability engines on a tractable instance. -/
def c7cs : ConstraintSet :=
  { west := ⟨{tA, tB, tC}, 1, ∅⟩
    north := ⟨{tA, tB, tC}, 1, ∅⟩
    east := ⟨{tA, tB, tC}, 1, ∅⟩
    played_tiles := generate_full_set \ {tA, tB, tC}
    my_hand := ∅ }

/-- Contradictory constraints: west and north each must hold exactly one
tile and tile A is the only candidate of both, so no configuration is
acceptable. -/
def c8cs : ConstraintSet :=
  { west := ⟨{tA}, 1, ∅⟩
    north := ⟨{tA}, 1, ∅⟩
    east := ⟨∅, 0, ∅⟩
    played_tiles := generate_full_set \ {tA, tB}
    my_hand := ∅ }

/-- The initial game state of the scenario hand, written out. -/
def gs0 : GameState :=
  { all_tiles := generate_full_set
    my_hand := c2hand
    history := []
    open_ends := none
    played_tiles := ∅
    current_player := .south
    tiles_remaining := (7, 7, 7, 7) }

/-- A game state in which south has no tiles left (so the game is over)
yet it is south's turn, with an open end of value 3. -/
def gsC10 : GameState :=
  { all_tiles := generate_full_set
    my_hand := ∅
    history := []
    open_ends := some (3, 4)
    played_tiles := ∅
    current_player := .south
    tiles_remaining := (0, 7, 7, 7) }

/-- The invariants a probability table must satisfy for its constraint
set: tile axis is the sorted unknown list; every entry lies in [0, 1];
each tile column sums to 1 over the three opponents; each opponent row
sums to that opponent's remaining count; and entries for tiles outside
an opponent's candidate set are exactly 0. -/
def tableInv (c : ConstraintSet) (pt : ProbabilityTable) : Prop :=
  pt.tiles = c.sortedUnknown ∧
  (∀ (o : Opp) (i : Nat), 0 ≤ pt.probs o i ∧ pt.probs o i ≤ 1) ∧
  (∀ i : Nat, i < pt.tiles.length →
    pt.probs .west i + pt.probs .north i + pt.probs .east i = 1) ∧
  (∀ o : Opp, ∑ i in Finset.range pt.tiles.length, pt.probs o i =
    ((c.pc o).tiles_remaining : ℚ)) ∧
  (∀ (o : Opp) (i : Nat) (t : Tile), pt.tiles[i]? = some t →
    t ∉ (c.pc o).candidate_tiles → pt.probs o i = 0)

/-! Lemmas about dict access and update. -/

theorem pc_setPc (c : ConstraintSet) (o o' : Opp) (v : PlayerConstraints) :
    (c.setPc o v).pc o' = if o' = o then v else c.pc o' := by
  cases o <;> cases o' <;>
    simp [ConstraintSet.setPc, ConstraintSet.pc]

theorem setPc_self (c : ConstraintSet) (o : Opp) :
    c.setPc o (c.pc o) = c := by
  cases o <;> rfl

theorem setPc_played (c : ConstraintSet) (o : Opp)
    (v : PlayerConstraints) : (c.setPc o v).played_tiles = c.played_tiles := by
  cases o <;> rfl

theorem setPc_hand (c : ConstraintSet) (o : Opp)
    (v : PlayerConstraints) : (c.setPc o v).my_hand = c.my_hand := by
  cases o <;> rfl

theorem set_candidates_cand (p : PlayerConstraints) (s : Finset Tile) :
    (p.set_candidates s).candidate_tiles = s := rfl

theorem set_candidates_rem (p : PlayerConstraints) (s : Finset Tile) :
    (p.set_candidates s).tiles_remaining = p.tiles_remaining := rfl

theorem set_candidates_elim (p : PlayerConstraints) (s : Finset Tile) :
    (p.set_candidates s).eliminated_values = p.eliminated_values := rfl

theorem set_candidates_self (p : PlayerConstraints) :
    p.set_candidates p.candidate_tiles = p := rfl

/-! Lemmas about a single in-place removal of the inner q loop. -/

theorem rmFrom_fst (c : ConstraintSet) (d : Finset Tile) (q : Opp) :
    (c.rmFrom d q).1 =
      c.setPc q ((c.pc q).set_candidates ((c.pc q).candidate_tiles \ d)) := by
  by_cases h : (c.pc q).candidate_tiles \ d = (c.pc q).candidate_tiles
  · simp only [ConstraintSet.rmFrom, h, ne_eq, not_true_eq_false, if_neg,
      not_false_eq_true]
    rw [set_candidates_self, setPc_self]
  · simp only [ConstraintSet.rmFrom, ne_eq, h, not_false_eq_true, if_pos]

theorem rmFrom_snd_false (c : ConstraintSet) (d : Finset Tile) (q : Opp)
    (h : (c.rmFrom d q).2 = false) :
    (c.pc q).candidate_tiles ∩ d = ∅ := by
  by_cases h2 : (c.pc q).candidate_tiles \ d = (c.pc q).candidate_tiles
  · rw [Finset.sdiff_eq_self_iff_disjoint,
      Finset.disjoint_iff_inter_eq_empty] at h2
    exact h2
  · exfalso
    simp only [ConstraintSet.rmFrom, ne_eq, h2, not_false_eq_true, if_pos]
      at h
    exact Bool.true_eq_false.mp h

theorem rmFrom_pc (c : ConstraintSet) (d : Finset Tile) (q q' : Opp) :
    ((c.rmFrom d q).1.pc q') =
      if q' = q then (c.pc q).set_candidates ((c.pc q).candidate_tiles \ d)
      else c.pc q' := by
  rw [rmFrom_fst, pc_setPc]

/-! Lemmas about stepDet, one body of the rule-1 p loop. -/

theorem stepDet_pc_of_det (c : ConstraintSet) (p : Opp)
    (hdet : determined (c.pc p)) (q' : Opp) :
    ((c.stepDet p).1.pc q') =
      if q' = p then c.pc p
      else (c.pc q').set_candidates
        ((c.pc q').candidate_tiles \ (c.pc p).candidate_tiles) := by
  unfold ConstraintSet.stepDet
  rw [if_pos hdet]
  cases p <;> cases q' <;>
    simp [othersOf, rmFrom_pc, pc_setPc, rmFrom_fst]

theorem stepDet_fst_of_not_det (c : ConstraintSet) (p : Opp)
    (hdet : ¬ determined (c.pc p)) : (c.stepDet p).1 = c := by
  unfold ConstraintSet.stepDet
  rw [if_neg hdet]

theorem stepDet_cand_subset (c : ConstraintSet) (p q' : Opp) :
    ((c.stepDet p).1.pc q').candidate_tiles ⊆ (c.pc q').candidate_tiles := by
  by_cases hdet : determined (c.pc p)
  · rw [stepDet_pc_of_det c p hdet]
    split
    · next h => rw [h]
    · rw [set_candidates_cand]
      exact Finset.sdiff_subset
  · rw [stepDet_fst_of_not_det c p hdet]

theorem stepDet_rem (c : ConstraintSet) (p q' : Opp) :
    ((c.stepDet p).1.pc q').tiles_remaining = (c.pc q').tiles_remaining := by
  by_cases hdet : determined (c.pc p)
  · rw [stepDet_pc_of_det c p hdet]
    split
    · next h => rw [h]
    · rw [set_candidates_rem]
  · rw [stepDet_fst_of_not_det c p hdet]

theorem stepDet_elim (c : ConstraintSet) (p q' : Opp) :
    ((c.stepDet p).1.pc q').eliminated_values =
      (c.pc q').eliminated_values := by
  by_cases hdet : determined (c.pc p)
  · rw [stepDet_pc_of_det c p hdet]
    split
    · next h => rw [h]
    · rw [set_candidates_elim]
  · rw [stepDet_fst_of_not_det c p hdet]

theorem stepDet_played (c : ConstraintSet) (p : Opp) :
    (c.stepDet p).1.played_tiles = c.played_tiles := by
  by_cases hdet : determined (c.pc p)
  · simp only [ConstraintSet.stepDet, if_pos hdet]
    rw [rmFrom_fst, rmFrom_fst, setPc_played, setPc_played]
  · rw [stepDet_fst_of_not_det c p hdet]

theorem stepDet_hand (c : ConstraintSet) (p : Opp) :
    (c.stepDet p).1.my_hand = c.my_hand := by
  by_cases hdet : determined (c.pc p)
  · simp only [ConstraintSet.stepDet, if_pos hdet]
    rw [rmFrom_fst, rmFrom_fst, setPc_hand, setPc_hand]
  · rw [stepDet_fst_of_not_det c p hdet]

theorem stepDet_false (c : ConstraintSet) (p : Opp)
    (h : (c.stepDet p).2 = false) :
    (c.stepDet p).1 = c ∧
    (determined (c.pc p) → ∀ q', q' ≠ p →
      (c.pc p).candidate_tiles ∩ (c.pc q').candidate_tiles = ∅) := by
  by_cases hdet : determined (c.pc p)
  · have hsnd : (c.stepDet p).2 =
        ((c.rmFrom (c.pc p).candidate_tiles (othersOf p).1).2 ||
         ((c.rmFrom (c.pc p).candidate_tiles (othersOf p).1).1.rmFrom
            (c.pc p).candidate_tiles (othersOf p).2).2) := by
      simp only [ConstraintSet.stepDet, if_pos hdet]
    rw [hsnd, Bool.or_eq_false_iff] at h
    have h1 : (c.rmFrom (c.pc p).candidate_tiles (othersOf p).1).2 = false :=
      h.1
    have hd1 := rmFrom_snd_false c (c.pc p).candidate_tiles (othersOf p).1 h1
    have hfst1 : (c.rmFrom (c.pc p).candidate_tiles (othersOf p).1).1 = c := by
      rw [rmFrom_fst]
      have hdis : (c.pc (othersOf p).1).candidate_tiles \
          (c.pc p).candidate_tiles = (c.pc (othersOf p).1).candidate_tiles := by
        rw [Finset.sdiff_eq_self_iff_disjoint,
          Finset.disjoint_iff_inter_eq_empty]
        exact hd1
      rw [hdis, set_candidates_self, setPc_self]
    have h2 : (c.rmFrom (c.pc p).candidate_tiles (othersOf p).2).2 = false := by
      have h2' := h.2
      rw [hfst1] at h2'
      exact h2'
    have hd2 := rmFrom_snd_false c (c.pc p).candidate_tiles (othersOf p).2 h2
    constructor
    · have hfst : (c.stepDet p).1 =
          ((c.rmFrom (c.pc p).candidate_tiles (othersOf p).1).1.rmFrom
            (c.pc p).candidate_tiles (othersOf p).2).1 := by
        simp only [ConstraintSet.stepDet, if_pos hdet]
      rw [hfst, hfst1, rmFrom_fst]
      have hdis2 : (c.pc (othersOf p).2).candidate_tiles \
          (c.pc p).candidate_tiles = (c.pc (othersOf p).2).candidate_tiles := by
        rw [Finset.sdiff_eq_self_iff_disjoint,
          Finset.disjoint_iff_inter_eq_empty]
        exact hd2
      rw [hdis2, set_candidates_self, setPc_self]
    · intro _ q' hq'
      have hq : q' = (othersOf p).1 ∨ q' = (othersOf p).2 := by
        cases p <;> cases q' <;> simp_all [othersOf]
      rcases hq with hq | hq
      · rw [hq, Finset.inter_comm]; exact hd1
      · rw [hq, Finset.inter_comm]; exact hd2
  · exact ⟨stepDet_fst_of_not_det c p hdet,
      fun hdet' => absurd hdet' hdet⟩

/-! Measure lemmas: each changing pass makes a new opponent pair
disjoint, which bounds the number of changing passes by three. -/

theorem badPair_mono (c c' : ConstraintSet)
    (hsub : ∀ o, (c'.pc o).candidate_tiles ⊆ (c.pc o).candidate_tiles)
    (x y : Opp) (h : ¬ badPair c x y) : ¬ badPair c' x y := by
  unfold badPair at h ⊢
  rw [not_not] at h ⊢
  have hs : (c'.pc x).candidate_tiles ∩ (c'.pc y).candidate_tiles ⊆
      (c.pc x).candidate_tiles ∩ (c.pc y).candidate_tiles :=
    Finset.inter_subset_inter (hsub x) (hsub y)
  rw [h] at hs
  exact Finset.subset_empty.mp hs

theorem ite_le_of_imp {P Q : Prop} [Decidable P] [Decidable Q]
    (h : P → Q) : (if P then (1 : Nat) else 0) ≤ (if Q then 1 else 0) := by
  by_cases hp : P
  · rw [if_pos hp, if_pos (h hp)]
  · rw [if_neg hp]
    exact Nat.zero_le _

theorem badPair_symm (c : ConstraintSet) (a b : Opp) :
    badPair c a b ↔ badPair c b a := by
  unfold badPair
  rw [Finset.inter_comm]

theorem pairMeasure_mono (c c' : ConstraintSet)
    (hsub : ∀ o, (c'.pc o).candidate_tiles ⊆ (c.pc o).candidate_tiles) :
    pairMeasure c' ≤ pairMeasure c := by
  have himp : ∀ a b : Opp, badPair c' a b → badPair c a b := by
    intro a b hb
    by_contra hn
    exact badPair_mono c c' hsub a b hn hb
  unfold pairMeasure
  have t1 := ite_le_of_imp (himp .west .north)
  have t2 := ite_le_of_imp (himp .west .east)
  have t3 := ite_le_of_imp (himp .north .east)
  omega

theorem pairMeasure_lt (c c' : ConstraintSet)
    (hsub : ∀ o, (c'.pc o).candidate_tiles ⊆ (c.pc o).candidate_tiles)
    (x y : Opp) (hxy : x ≠ y) (hbad : badPair c x y)
    (hgood : ¬ badPair c' x y) : pairMeasure c' < pairMeasure c := by
  have himp : ∀ a b : Opp, badPair c' a b → badPair c a b := by
    intro a b hb
    by_contra hn
    exact badPair_mono c c' hsub a b hn hb
  have t1 := ite_le_of_imp (himp .west .north)
  have t2 := ite_le_of_imp (himp .west .east)
  have t3 := ite_le_of_imp (himp .north .east)
  have key : ∀ a b : Opp,
      badPair c a b → ¬ badPair c' a b →
      ((a = .west ∧ b = .north) ∨ (a = .north ∧ b = .west) ∨
       (a = .west ∧ b = .east) ∨ (a = .east ∧ b = .west) ∨
       (a = .north ∧ b = .east) ∨ (a = .east ∧ b = .north)) →
      pairMeasure c' < pairMeasure c := by
    intro a b hb hg hcases
    unfold pairMeasure
    rcases hcases with ⟨ha, hb'⟩ | ⟨ha, hb'⟩ | ⟨ha, hb'⟩ | ⟨ha, hb'⟩ |
      ⟨ha, hb'⟩ | ⟨ha, hb'⟩ <;> subst ha <;> subst hb' <;>
      [skip; rw [badPair_symm] at hb hg; skip;
       rw [badPair_symm] at hb hg; skip; rw [badPair_symm] at hb hg] <;>
      [rw [if_pos hb]; rw [if_pos hb]; rw [if_pos hb];
       rw [if_pos hb]; rw [if_pos hb]; rw [if_pos hb]] <;>
      [rw [if_neg hg]; rw [if_neg hg]; rw [if_neg hg];
       rw [if_neg hg]; rw [if_neg hg]; rw [if_neg hg]] <;> omega
  apply key x y hbad hgood
  cases x <;> cases y <;> simp_all

theorem rmFrom_snd_true (c : ConstraintSet) (d : Finset Tile) (q : Opp)
    (h : (c.rmFrom d q).2 = true) :
    (c.pc q).candidate_tiles ∩ d ≠ ∅ := by
  by_cases h2 : (c.pc q).candidate_tiles \ d = (c.pc q).candidate_tiles
  · exfalso
    simp only [ConstraintSet.rmFrom, ne_eq, h2, not_true_eq_false, if_neg,
      not_false_eq_true] at h
    exact Bool.false_ne_true h
  · rw [Finset.sdiff_eq_self_iff_disjoint] at h2
    exact fun he => h2 (Finset.disjoint_iff_inter_eq_empty.mpr he)

theorem othersOf_ne (p : Opp) :
    (othersOf p).1 ≠ p ∧ (othersOf p).2 ≠ p ∧
    (othersOf p).1 ≠ (othersOf p).2 := by
  cases p <;> simp [othersOf]

theorem stepDet_true (c : ConstraintSet) (p : Opp)
    (h : (c.stepDet p).2 = true) :
    pairMeasure (c.stepDet p).1 < pairMeasure c := by
  by_cases hdet : determined (c.pc p)
  · have hsnd : (c.stepDet p).2 =
        ((c.rmFrom (c.pc p).candidate_tiles (othersOf p).1).2 ||
         ((c.rmFrom (c.pc p).candidate_tiles (othersOf p).1).1.rmFrom
            (c.pc p).candidate_tiles (othersOf p).2).2) := by
      simp only [ConstraintSet.stepDet, if_pos hdet]
    rw [hsnd, Bool.or_eq_true] at h
    have hone := othersOf_ne p
    have hgoal : ∀ q' : Opp, q' ≠ p →
        badPair c q' p → pairMeasure (c.stepDet p).1 < pairMeasure c := by
      intro q' hq' hb
      apply pairMeasure_lt c (c.stepDet p).1 (stepDet_cand_subset c p)
        q' p hq' hb
      unfold badPair
      rw [not_not, stepDet_pc_of_det c p hdet q', stepDet_pc_of_det c p hdet p,
        if_neg hq', if_pos rfl, set_candidates_cand]
      exact Finset.sdiff_inter_self _ _
    rcases h with h1 | h2
    · exact hgoal (othersOf p).1 hone.1
        (rmFrom_snd_true c (c.pc p).candidate_tiles (othersOf p).1 h1)
    · have hpcq : ((c.rmFrom (c.pc p).candidate_tiles (othersOf p).1).1.pc
          (othersOf p).2) = c.pc (othersOf p).2 := by
        rw [rmFrom_pc, if_neg (Ne.symm hone.2.2)]
      have hne := rmFrom_snd_true _ (c.pc p).candidate_tiles (othersOf p).2 h2
      rw [hpcq] at hne
      exact hgoal (othersOf p).2 hone.2.1 hne
  · exfalso
    have : (c.stepDet p).2 = false := by
      simp only [ConstraintSet.stepDet, if_neg hdet]
    rw [this] at h
    exact Bool.false_ne_true h

/-! Lemmas about one full pass of the propagation loop. -/

theorem onePass_fst (c : ConstraintSet) :
    (c.onePass).1 = (((c.stepDet .west).1.stepDet .north).1.stepDet .east).1 :=
  rfl

theorem onePass_snd (c : ConstraintSet) :
    (c.onePass).2 = ((c.stepDet .west).2 ||
      ((c.stepDet .west).1.stepDet .north).2 ||
      (((c.stepDet .west).1.stepDet .north).1.stepDet .east).2) :=
  rfl

theorem onePass_cand_subset (c : ConstraintSet) (o : Opp) :
    ((c.onePass).1.pc o).candidate_tiles ⊆ (c.pc o).candidate_tiles := by
  rw [onePass_fst]
  exact Finset.Subset.trans (stepDet_cand_subset _ _ _)
    (Finset.Subset.trans (stepDet_cand_subset _ _ _)
      (stepDet_cand_subset _ _ _))

theorem onePass_rem (c : ConstraintSet) (o : Opp) :
    ((c.onePass).1.pc o).tiles_remaining = (c.pc o).tiles_remaining := by
  rw [onePass_fst, stepDet_rem, stepDet_rem, stepDet_rem]

theorem onePass_elim (c : ConstraintSet) (o : Opp) :
    ((c.onePass).1.pc o).eliminated_values = (c.pc o).eliminated_values := by
  rw [onePass_fst, stepDet_elim, stepDet_elim, stepDet_elim]

theorem onePass_played (c : ConstraintSet) :
    (c.onePass).1.played_tiles = c.played_tiles := by
  rw [onePass_fst, stepDet_played, stepDet_played, stepDet_played]

theorem onePass_hand (c : ConstraintSet) :
    (c.onePass).1.my_hand = c.my_hand := by
  rw [onePass_fst, stepDet_hand, stepDet_hand, stepDet_hand]

theorem onePass_false (c : ConstraintSet) (h : (c.onePass).2 = false) :
    (c.onePass).1 = c ∧ FixPt c := by
  rw [onePass_snd, Bool.or_eq_false_iff, Bool.or_eq_false_iff] at h
  obtain ⟨⟨h1, h2⟩, h3⟩ := h
  obtain ⟨hf1, hx1⟩ := stepDet_false c .west h1
  rw [hf1] at h2 h3
  obtain ⟨hf2, hx2⟩ := stepDet_false c .north h2
  rw [hf2] at h3
  obtain ⟨hf3, hx3⟩ := stepDet_false c .east h3
  constructor
  · rw [onePass_fst, hf1, hf2, hf3]
  · intro p q hne hdet
    cases p
    · exact hx1 hdet q (Ne.symm hne)
    · exact hx2 hdet q (Ne.symm hne)
    · exact hx3 hdet q (Ne.symm hne)

theorem onePass_true (c : ConstraintSet) (h : (c.onePass).2 = true) :
    pairMeasure (c.onePass).1 < pairMeasure c := by
  rw [onePass_snd, Bool.or_eq_true, Bool.or_eq_true] at h
  rcases h with (h1 | h2) | h3
  · have hlt := stepDet_true c .west h1
    have hle : pairMeasure (c.onePass).1 ≤ pairMeasure (c.stepDet .west).1 := by
      rw [onePass_fst]
      exact le_trans
        (pairMeasure_mono _ _ (fun o => stepDet_cand_subset _ .east o))
        (pairMeasure_mono _ _ (fun o => stepDet_cand_subset _ .north o))
    exact lt_of_le_of_lt hle hlt
  · have hlt := stepDet_true _ .north h2
    have hle1 : pairMeasure (c.onePass).1 ≤
        pairMeasure ((c.stepDet .west).1.stepDet .north).1 := by
      rw [onePass_fst]
      exact pairMeasure_mono _ _ (fun o => stepDet_cand_subset _ .east o)
    have hle2 : pairMeasure (c.stepDet .west).1 ≤ pairMeasure c :=
      pairMeasure_mono _ _ (fun o => stepDet_cand_subset _ .west o)
    exact lt_of_le_of_lt hle1 (lt_of_lt_of_le hlt hle2)
  · have hlt := stepDet_true _ .east h3
    have hle : pairMeasure ((c.stepDet .west).1.stepDet .north).1 ≤
        pairMeasure c :=
      le_trans (pairMeasure_mono _ _ (fun o => stepDet_cand_subset _ .north o))
        (pairMeasure_mono _ _ (fun o => stepDet_cand_subset _ .west o))
    rw [onePass_fst]
    exact lt_of_lt_of_le hlt hle

/-! Lemmas about the bounded loop and propagate. -/

theorem propLoop_fixpt : ∀ (n : Nat) (c : ConstraintSet),
    pairMeasure c < n → FixPt (ConstraintSet.propLoop n c) := by
  intro n
  induction n with
  | zero => intro c h; exact absurd h (Nat.not_lt_zero _)
  | succ k ih =>
      intro c h
      have e : ConstraintSet.propLoop (k + 1) c =
          (if (c.onePass).2 = true then ConstraintSet.propLoop k (c.onePass).1
           else (c.onePass).1) := by
        simp only [ConstraintSet.propLoop]
      rw [e]
      by_cases hb : (c.onePass).2 = true
      · rw [if_pos hb]
        exact ih _ (lt_of_lt_of_le (onePass_true c hb) (Nat.le_of_lt_succ h))
      · rw [if_neg hb]
        have hb' : (c.onePass).2 = false := by
          revert hb; cases (c.onePass).2 <;> simp
        obtain ⟨hf, hfix⟩ := onePass_false c hb'
        rw [hf]
        exact hfix

theorem pairMeasure_le_three (c : ConstraintSet) : pairMeasure c ≤ 3 := by
  unfold pairMeasure
  have t1 : (if badPair c .west .north then (1 : Nat) else 0) ≤ 1 := by
    split <;> omega
  have t2 : (if badPair c .west .east then (1 : Nat) else 0) ≤ 1 := by
    split <;> omega
  have t3 : (if badPair c .north .east then (1 : Nat) else 0) ≤ 1 := by
    split <;> omega
  omega

theorem propagate_FixPt (c : ConstraintSet) : FixPt c.propagate :=
  propLoop_fixpt 50 c
    (lt_of_le_of_lt (pairMeasure_le_three c) (by omega))

theorem propLoop_elim : ∀ (n : Nat) (c : ConstraintSet) (o : Opp),
    ((ConstraintSet.propLoop n c).pc o).eliminated_values =
      (c.pc o).eliminated_values := by
  intro n
  induction n with
  | zero => intro c o; rfl
  | succ k ih =>
      intro c o
      have e : ConstraintSet.propLoop (k + 1) c =
          (if (c.onePass).2 = true then ConstraintSet.propLoop k (c.onePass).1
           else (c.onePass).1) := by
        simp only [ConstraintSet.propLoop]
      rw [e]
      by_cases hb : (c.onePass).2 = true
      · rw [if_pos hb, ih, onePass_elim]
      · rw [if_neg hb, onePass_elim]

theorem propLoop_cand_subset : ∀ (n : Nat) (c : ConstraintSet) (o : Opp),
    ((ConstraintSet.propLoop n c).pc o).candidate_tiles ⊆
      (c.pc o).candidate_tiles := by
  intro n
  induction n with
  | zero => intro c o; exact Finset.Subset.refl _
  | succ k ih =>
      intro c o
      have e : ConstraintSet.propLoop (k + 1) c =
          (if (c.onePass).2 = true then ConstraintSet.propLoop k (c.onePass).1
           else (c.onePass).1) := by
        simp only [ConstraintSet.propLoop]
      rw [e]
      by_cases hb : (c.onePass).2 = true
      · rw [if_pos hb]
        exact Finset.Subset.trans (ih _ o) (onePass_cand_subset c o)
      · rw [if_neg hb]
        exact onePass_cand_subset c o

theorem propLoop_rem : ∀ (n : Nat) (c : ConstraintSet) (o : Opp),
    ((ConstraintSet.propLoop n c).pc o).tiles_remaining =
      (c.pc o).tiles_remaining := by
  intro n
  induction n with
  | zero => intro c o; rfl
  | succ k ih =>
      intro c o
      have e : ConstraintSet.propLoop (k + 1) c =
          (if (c.onePass).2 = true then ConstraintSet.propLoop k (c.onePass).1
           else (c.onePass).1) := by
        simp only [ConstraintSet.propLoop]
      rw [e]
      by_cases hb : (c.onePass).2 = true
      · rw [if_pos hb, ih, onePass_rem]
      · rw [if_neg hb, onePass_rem]

theorem propLoop_played : ∀ (n : Nat) (c : ConstraintSet),
    (ConstraintSet.propLoop n c).played_tiles = c.played_tiles := by
  intro n
  induction n with
  | zero => intro c; rfl
  | succ k ih =>
      intro c
      have e : ConstraintSet.propLoop (k + 1) c =
          (if (c.onePass).2 = true then ConstraintSet.propLoop k (c.onePass).1
           else (c.onePass).1) := by
        simp only [ConstraintSet.propLoop]
      rw [e]
      by_cases hb : (c.onePass).2 = true
      · rw [if_pos hb, ih, onePass_played]
      · rw [if_neg hb, onePass_played]

theorem propLoop_hand : ∀ (n : Nat) (c : ConstraintSet),
    (ConstraintSet.propLoop n c).my_hand = c.my_hand := by
  intro n
  induction n with
  | zero => intro c; rfl
  | succ k ih =>
      intro c
      have e : ConstraintSet.propLoop (k + 1) c =
          (if (c.onePass).2 = true then ConstraintSet.propLoop k (c.onePass).1
           else (c.onePass).1) := by
        simp only [ConstraintSet.propLoop]
      rw [e]
      by_cases hb : (c.onePass).2 = true
      · rw [if_pos hb, ih, onePass_hand]
      · rw [if_neg hb, onePass_hand]

/-! Lemmas about value elimination. -/

theorem mem_eliminate_value (p : PlayerConstraints) (v : Nat) (t : Tile) :
    t ∈ (p.eliminate_value v).candidate_tiles ↔
      t ∈ p.candidate_tiles ∧ ¬ t.contains_value v := by
  unfold PlayerConstraints.eliminate_value tiles_with_value
  simp only [Finset.mem_sdiff, Finset.mem_filter]
  unfold Tile.contains_value
  tauto

theorem eliminate_value_elim (p : PlayerConstraints) (v : Nat) :
    (p.eliminate_value v).eliminated_values = p.eliminated_values ∪ {v} :=
  rfl

/-- C6: after ConstraintSet.propagate returns, the determined-player
rule is at a fixed point: every opponent whose candidate-set size equals
their remaining count shares no candidate tile with any other opponent;
and the constructed 3-opponent chain A/1, A B/1, A B C/1 resolves to
exactly A, B, C. -/
theorem c6_propagate_fixed_point :
    (∀ (c : ConstraintSet) (p q : Opp), p ≠ q →
      determined (c.propagate.pc p) →
      (c.propagate.pc p).candidate_tiles ∩
        (c.propagate.pc q).candidate_tiles = ∅) ∧
    (c6cs.propagate.pc .west).candidate_tiles = {tA} ∧
    (c6cs.propagate.pc .north).candidate_tiles = {tB} ∧
    (c6cs.propagate.pc .east).candidate_tiles = {tC} := by
  refine ⟨fun c p q hne hdet => propagate_FixPt c p q hne hdet, ?_, ?_, ?_⟩
    <;> decide

/-- Witness for C6: the propagated chain scenario has a determined west
(one candidate, one tile remaining), and its candidate set is indeed
disjoint from north's. -/
theorem c6_propagate_fixed_point_witness :
    (c6cs.propagate.pc .west).candidate_tiles ∩
      (c6cs.propagate.pc .north).candidate_tiles = ∅ :=
  c6_propagate_fixed_point.1 c6cs .west .north (by decide) (by decide)

/-- C5: applying an opponent pass on open ends (x, y) leaves that
opponent with no candidate containing x or y, records both x and y as
eliminated for them, and changes no other opponent's eliminated-value
set. -/
theorem c5_apply_pass :
    ∀ (c : ConstraintSet) (o : Opp) (x y : Nat),
      (∀ t ∈ ((c.apply_pass o (x, y)).pc o).candidate_tiles,
        ¬ t.contains_value x ∧ ¬ t.contains_value y) ∧
      x ∈ ((c.apply_pass o (x, y)).pc o).eliminated_values ∧
      y ∈ ((c.apply_pass o (x, y)).pc o).eliminated_values ∧
      (∀ o', o' ≠ o →
        ((c.apply_pass o (x, y)).pc o').eliminated_values =
          (c.pc o').eliminated_values) := by
  intro c o x y
  have hres : c.apply_pass o (x, y) =
      (c.setPc o
        (if y ≠ x then ((c.pc o).eliminate_value x).eliminate_value y
         else (c.pc o).eliminate_value x)).propagate := by
    simp only [ConstraintSet.apply_pass]
  set p2 : PlayerConstraints :=
    (if y ≠ x then ((c.pc o).eliminate_value x).eliminate_value y
     else (c.pc o).eliminate_value x) with hp2
  have hcand : ∀ t ∈ p2.candidate_tiles,
      ¬ t.contains_value x ∧ ¬ t.contains_value y := by
    intro t ht
    rw [hp2] at ht
    by_cases hxy : y ≠ x
    · rw [if_pos hxy, mem_eliminate_value, mem_eliminate_value] at ht
      exact ⟨ht.1.2, ht.2⟩
    · rw [if_neg hxy] at ht
      rw [not_not] at hxy
      rw [mem_eliminate_value] at ht
      rw [hxy]
      exact ⟨ht.2, ht.2⟩
  have helim : x ∈ p2.eliminated_values ∧ y ∈ p2.eliminated_values := by
    rw [hp2]
    by_cases hxy : y ≠ x
    · rw [if_pos hxy, eliminate_value_elim, eliminate_value_elim]
      constructor
      · rw [Finset.mem_union]
        left
        rw [Finset.mem_union]
        right
        exact Finset.mem_singleton_self x
      · rw [Finset.mem_union]
        right
        exact Finset.mem_singleton_self y
    · rw [not_not] at hxy
      rw [if_neg (by rw [hxy]; exact fun hc => hc rfl),
        eliminate_value_elim, hxy]
      constructor <;>
        (rw [Finset.mem_union]; right; exact Finset.mem_singleton_self x)
  refine ⟨?_, ?_, ?_, ?_⟩
  · intro t ht
    rw [hres] at ht
    have hsub : t ∈ ((c.setPc o p2).pc o).candidate_tiles :=
      propLoop_cand_subset 50 _ o ht
    rw [pc_setPc, if_pos rfl] at hsub
    exact hcand t hsub
  · rw [hres]
    show x ∈ ((ConstraintSet.propLoop 50 _).pc o).eliminated_values
    rw [propLoop_elim, pc_setPc, if_pos rfl]
    exact helim.1
  · rw [hres]
    show y ∈ ((ConstraintSet.propLoop 50 _).pc o).eliminated_values
    rw [propLoop_elim, pc_setPc, if_pos rfl]
    exact helim.2
  · intro o' ho'
    rw [hres]
    show ((ConstraintSet.propLoop 50 _).pc o').eliminated_values = _
    rw [propLoop_elim, pc_setPc, if_neg ho']

/-- Witness for C5: a concrete pass by west on open ends (0, 1)
eliminates both values for west, empties the matching candidates, and
leaves north's eliminated set unchanged. -/
theorem c5_apply_pass_witness :
    (0 ∈ ((c6cs.apply_pass .west (0, 1)).pc .west).eliminated_values ∧
     1 ∈ ((c6cs.apply_pass .west (0, 1)).pc .west).eliminated_values) ∧
    ((c6cs.apply_pass .west (0, 1)).pc .north).eliminated_values =
      (c6cs.pc .north).eliminated_values :=
  ⟨⟨(c5_apply_pass c6cs .west 0 1).2.1, (c5_apply_pass c6cs .west 0 1).2.2.1⟩,
   (c5_apply_pass c6cs .west 0 1).2.2.2 .north (by decide)⟩

/-! Lemmas evaluating the game-state transition in each of its cases. -/

theorem apply_action_play (s : GameState) (p : Player) (t : Tile) (e : Nat) :
    s.apply_action (.play p t e) =
      if p ≠ s.current_player then .error .wrongTurn
      else s.apply_play p t e := rfl

theorem apply_action_pass (s : GameState) (p : Player) :
    s.apply_action (.pass p) =
      if p ≠ s.current_player then .error .wrongTurn
      else s.apply_pass p := rfl

theorem apply_play_mismatch (s : GameState) (p : Player) (t : Tile) (e : Nat)
    (hcv : ¬ t.contains_value e) :
    s.apply_play p t e = .error .tileMismatch := by
  simp only [GameState.apply_play, if_pos hcv]

theorem apply_play_already (s : GameState) (p : Player) (t : Tile) (e : Nat)
    (hcv : t.contains_value e) (hpl : t ∈ s.played_tiles) :
    s.apply_play p t e = .error .alreadyPlayed := by
  simp only [GameState.apply_play, if_neg (not_not_intro hcv), if_pos hpl]

theorem apply_play_first (s : GameState) (p : Player) (t : Tile) (e : Nat)
    (hcv : t.contains_value e) (hpl : t ∉ s.played_tiles)
    (ho : s.open_ends = none) :
    s.apply_play p t e = .ok { s with
      my_hand := if p = .south then s.my_hand \ {t} else s.my_hand
      history := s.history ++ [Action.play p t e]
      open_ends := some (t.a, t.b)
      played_tiles := s.played_tiles ∪ {t}
      current_player := GameState.next_player s.current_player
      tiles_remaining := decAt s.tiles_remaining p } := by
  simp only [GameState.apply_play, if_neg (not_not_intro hcv), if_neg hpl, ho]

theorem apply_play_illegal (s : GameState) (p : Player) (t : Tile) (e : Nat)
    (l r : Nat) (hcv : t.contains_value e) (hpl : t ∉ s.played_tiles)
    (ho : s.open_ends = some (l, r)) (hle : e ≠ l ∧ e ≠ r) :
    s.apply_play p t e = .error .illegalEnd := by
  simp only [GameState.apply_play, if_neg (not_not_intro hcv), if_neg hpl, ho,
    if_pos hle]

theorem apply_play_chain (s : GameState) (p : Player) (t : Tile) (e : Nat)
    (l r : Nat) (hcv : t.contains_value e) (hpl : t ∉ s.played_tiles)
    (ho : s.open_ends = some (l, r)) (hle : ¬ (e ≠ l ∧ e ≠ r)) :
    s.apply_play p t e = .ok { s with
      my_hand := if p = .south then s.my_hand \ {t} else s.my_hand
      history := s.history ++ [Action.play p t e]
      open_ends := if l = e then some (t.other_value e, r)
                   else some (l, t.other_value e)
      played_tiles := s.played_tiles ∪ {t}
      current_player := GameState.next_player s.current_player
      tiles_remaining := decAt s.tiles_remaining p } := by
  simp only [GameState.apply_play, if_neg (not_not_intro hcv), if_neg hpl, ho,
    if_neg hle]

theorem apply_pass_none (s : GameState) (p : Player)
    (ho : s.open_ends = none) :
    s.apply_pass p = .error .cannotPassFirst := by
  simp only [GameState.apply_pass, ho]

theorem apply_pass_some (s : GameState) (p : Player) (l r : Nat)
    (ho : s.open_ends = some (l, r)) :
    s.apply_pass p = .ok { s with
      history := s.history ++ [Action.pass p]
      current_player := GameState.next_player s.current_player } := by
  simp only [GameState.apply_pass, ho]

/-- C3: apply_action fails exactly when the turn is wrong (WrongTurn);
or, for a Play, the tile lacks the declared end (TileMismatch), is
already played (AlreadyPlayed), or an open-end pair exists and the end
matches neither open value (IllegalEnd); or, for a Pass, no open ends
exist yet (CannotPassFirst); it succeeds otherwise. -/
theorem c3_apply_action_error_conditions :
    ∀ (s : GameState) (a : Action),
      ((∃ s', s.apply_action a = .ok s') ↔
        ¬ (a.player ≠ s.current_player ∨
           (∃ p t e, a = .play p t e ∧
             (¬ t.contains_value e ∨ t ∈ s.played_tiles ∨
              (∃ l r, s.open_ends = some (l, r) ∧ e ≠ l ∧ e ≠ r))) ∨
           (∃ p, a = .pass p ∧ s.open_ends = none))) ∧
      (s.apply_action a = .error .wrongTurn ↔
        a.player ≠ s.current_player) ∧
      (∀ p t e, a = .play p t e → p = s.current_player →
        ((s.apply_action a = .error .tileMismatch ↔
            ¬ t.contains_value e) ∧
         (s.apply_action a = .error .alreadyPlayed ↔
            t.contains_value e ∧ t ∈ s.played_tiles) ∧
         (s.apply_action a = .error .illegalEnd ↔
            t.contains_value e ∧ t ∉ s.played_tiles ∧
            ∃ l r, s.open_ends = some (l, r) ∧ e ≠ l ∧ e ≠ r))) ∧
      (∀ p, a = .pass p → p = s.current_player →
        (s.apply_action a = .error .cannotPassFirst ↔
          s.open_ends = none)) := by
  intro s a
  cases a with
  | play p t e =>
      by_cases hturn : p = s.current_player
      · have hobe : ¬ (p ≠ s.current_player) := not_not_intro hturn
        by_cases hcv : t.contains_value e
        · by_cases hpl : t ∈ s.played_tiles
          · have hres : s.apply_action (.play p t e) = .error .alreadyPlayed := by
              rw [apply_action_play, if_neg hobe,
                apply_play_already s p t e hcv hpl]
            refine ⟨?_, ?_, ?_, ?_⟩
            · refine iff_of_false ?_ ?_
              · rintro ⟨s', hs'⟩
                rw [hres] at hs'
                exact Except.noConfusion hs'
              · intro hneg
                exact hneg (Or.inr (Or.inl
                  ⟨p, t, e, rfl, Or.inr (Or.inl hpl)⟩))
            · rw [hres]
              exact iff_of_false (by simp) hobe
            · intro p' t' e' heq hp
              injection heq with h1 h2 h3
              subst h1; subst h2; subst h3
              rw [hres]
              refine ⟨iff_of_false (by simp) (fun h => h hcv),
                iff_of_true rfl ⟨hcv, hpl⟩,
                iff_of_false (by simp) (fun h => h.2.1 hpl)⟩
            · intro p' heq
              exact absurd heq (by simp)
          · cases ho : s.open_ends with
            | none =>
                have hres : s.apply_action (.play p t e) = .ok { s with
                    my_hand := if p = .south then s.my_hand \ {t}
                               else s.my_hand
                    history := s.history ++ [Action.play p t e]
                    open_ends := some (t.a, t.b)
                    played_tiles := s.played_tiles ∪ {t}
                    current_player := GameState.next_player s.current_player
                    tiles_remaining := decAt s.tiles_remaining p } := by
                  rw [apply_action_play, if_neg hobe,
                    apply_play_first s p t e hcv hpl ho]
                refine ⟨?_, ?_, ?_, ?_⟩
                · refine iff_of_true ⟨_, hres⟩ ?_
                  intro hdis
                  rcases hdis with h | h | h
                  · exact hobe h
                  · obtain ⟨p', t', e', heq, hbad⟩ := h
                    injection heq with h1 h2 h3
                    subst h1; subst h2; subst h3
                    rcases hbad with hb | hb | hb
                    · exact hb hcv
                    · exact hpl hb
                    · obtain ⟨l, r, hlr, _, _⟩ := hb
                      exact Option.noConfusion hlr
                  · obtain ⟨p', heq, _⟩ := h
                    exact absurd heq (by simp)
                · rw [hres]
                  exact iff_of_false (by simp) hobe
                · intro p' t' e' heq hp
                  injection heq with h1 h2 h3
                  subst h1; subst h2; subst h3
                  rw [hres]
                  refine ⟨iff_of_false (by simp) (fun h => h hcv),
                    iff_of_false (by simp) (fun h => hpl h.2),
                    iff_of_false (by simp) ?_⟩
                  intro h
                  obtain ⟨l, r, hlr, _, _⟩ := h.2.2
                  exact Option.noConfusion hlr
                · intro p' heq
                  exact absurd heq (by simp)
            | some lr =>
                by_cases hle : e ≠ lr.1 ∧ e ≠ lr.2
                · have hres : s.apply_action (.play p t e) =
                      .error .illegalEnd := by
                    rw [apply_action_play, if_neg hobe,
                      apply_play_illegal s p t e lr.1 lr.2 hcv hpl
                        (by rw [ho]) hle]
                  refine ⟨?_, ?_, ?_, ?_⟩
                  · refine iff_of_false ?_ ?_
                    · rintro ⟨s', hs'⟩
                      rw [hres] at hs'
                      exact Except.noConfusion hs'
                    · intro hneg
                      exact hneg (Or.inr (Or.inl ⟨p, t, e, rfl, Or.inr
                        (Or.inr ⟨lr.1, lr.2, rfl, hle.1, hle.2⟩)⟩))
                  · rw [hres]
                    exact iff_of_false (by simp) hobe
                  · intro p' t' e' heq hp
                    injection heq with h1 h2 h3
                    subst h1; subst h2; subst h3
                    rw [hres]
                    refine ⟨iff_of_false (by simp) (fun h => h hcv),
                      iff_of_false (by simp) (fun h => hpl h.2),
                      iff_of_true rfl
                        ⟨hcv, hpl, lr.1, lr.2, rfl, hle.1, hle.2⟩⟩
                  · intro p' heq
                    exact absurd heq (by simp)
                · have hor : e = lr.1 ∨ e = lr.2 := by
                    rcases not_and_or.mp hle with h | h
                    · exact Or.inl (not_not.mp h)
                    · exact Or.inr (not_not.mp h)
                  have hres : s.apply_action (.play p t e) = .ok { s with
                      my_hand := if p = .south then s.my_hand \ {t}
                                 else s.my_hand
                      history := s.history ++ [Action.play p t e]
                      open_ends := if lr.1 = e then
                          some (t.other_value e, lr.2)
                        else some (lr.1, t.other_value e)
                      played_tiles := s.played_tiles ∪ {t}
                      current_player := GameState.next_player s.current_player
                      tiles_remaining := decAt s.tiles_remaining p } := by
                    rw [apply_action_play, if_neg hobe,
                      apply_play_chain s p t e lr.1 lr.2 hcv hpl
                        (by rw [ho]) hle]
                  have hnotlr : ∀ l r : Nat,
                      (some lr : Option (Nat × Nat)) = some (l, r) →
                      ¬ (e ≠ l ∧ e ≠ r) := by
                    intro l r hlr hc
                    rw [Option.some.injEq] at hlr
                    subst hlr
                    rcases hor with h | h
                    · exact hc.1 h
                    · exact hc.2 h
                  refine ⟨?_, ?_, ?_, ?_⟩
                  · refine iff_of_true ⟨_, hres⟩ ?_
                    intro hdis
                    rcases hdis with h | h | h
                    · exact hobe h
                    · obtain ⟨p', t', e', heq, hbad⟩ := h
                      injection heq with h1 h2 h3
                      subst h1; subst h2; subst h3
                      rcases hbad with hb | hb | hb
                      · exact hb hcv
                      · exact hpl hb
                      · obtain ⟨l, r, hlr, hnl, hnr⟩ := hb
                        exact hnotlr l r hlr ⟨hnl, hnr⟩
                    · obtain ⟨p', heq, _⟩ := h
                      exact absurd heq (by simp)
                  · rw [hres]
                    exact iff_of_false (by simp) hobe
                  · intro p' t' e' heq hp
                    injection heq with h1 h2 h3
                    subst h1; subst h2; subst h3
                    rw [hres]
                    refine ⟨iff_of_false (by simp) (fun h => h hcv),
                      iff_of_false (by simp) (fun h => hpl h.2),
                      iff_of_false (by simp) ?_⟩
                    intro h
                    obtain ⟨l, r, hlr, hnl, hnr⟩ := h.2.2
                    exact hnotlr l r hlr ⟨hnl, hnr⟩
                  · intro p' heq
                    exact absurd heq (by simp)
        · have hres : s.apply_action (.play p t e) = .error .tileMismatch := by
            rw [apply_action_play, if_neg hobe, apply_play_mismatch s p t e hcv]
          refine ⟨?_, ?_, ?_, ?_⟩
          · refine iff_of_false ?_ ?_
            · rintro ⟨s', hs'⟩
              rw [hres] at hs'
              exact Except.noConfusion hs'
            · intro hneg
              exact hneg (Or.inr (Or.inl ⟨p, t, e, rfl, Or.inl hcv⟩))
          · rw [hres]
            exact iff_of_false (by simp) hobe
          · intro p' t' e' heq hp
            injection heq with h1 h2 h3
            subst h1; subst h2; subst h3
            rw [hres]
            refine ⟨iff_of_true rfl hcv,
              iff_of_false (by simp) (fun h => hcv h.1),
              iff_of_false (by simp) (fun h => hcv h.1)⟩
          · intro p' heq
            exact absurd heq (by simp)
      · have hres : s.apply_action (.play p t e) = .error .wrongTurn := by
          rw [apply_action_play, if_pos hturn]
        refine ⟨?_, ?_, ?_, ?_⟩
        · refine iff_of_false ?_ ?_
          · rintro ⟨s', hs'⟩
            rw [hres] at hs'
            exact Except.noConfusion hs'
          · intro hneg
            exact hneg (Or.inl hturn)
        · rw [hres]
          exact iff_of_true rfl hturn
        · intro p' t' e' heq hp
          injection heq with h1 h2 h3
          subst h1
          exact absurd hp hturn
        · intro p' heq
          exact absurd heq (by simp)
  | pass p =>
      by_cases hturn : p = s.current_player
      · have hobe : ¬ (p ≠ s.current_player) := not_not_intro hturn
        cases ho : s.open_ends with
        | none =>
            have hres : s.apply_action (.pass p) =
                .error .cannotPassFirst := by
              rw [apply_action_pass, if_neg hobe, apply_pass_none s p ho]
            refine ⟨?_, ?_, ?_, ?_⟩
            · refine iff_of_false ?_ ?_
              · rintro ⟨s', hs'⟩
                rw [hres] at hs'
                exact Except.noConfusion hs'
              · intro hneg
                exact hneg (Or.inr (Or.inr ⟨p, rfl, rfl⟩))
            · rw [hres]
              exact iff_of_false (by simp) hobe
            · intro p' t' e' heq
              exact absurd heq (by simp)
            · intro p' heq hp
              rw [hres]
              exact iff_of_true rfl rfl
        | some lr =>
            have hres : s.apply_action (.pass p) = .ok { s with
                history := s.history ++ [Action.pass p]
                current_player := GameState.next_player s.current_player } := by
              rw [apply_action_pass, if_neg hobe,
                apply_pass_some s p lr.1 lr.2 (by rw [ho])]
            refine ⟨?_, ?_, ?_, ?_⟩
            · refine iff_of_true ⟨_, hres⟩ ?_
              intro hdis
              rcases hdis with h | h | h
              · exact hobe h
              · obtain ⟨p', t', e', heq, _⟩ := h
                exact absurd heq (by simp)
              · obtain ⟨p', heq, hnone⟩ := h
                exact Option.noConfusion hnone
            · rw [hres]
              exact iff_of_false (by simp) hobe
            · intro p' t' e' heq
              exact absurd heq (by simp)
            · intro p' heq hp
              rw [hres]
              refine iff_of_false (by simp) ?_
              simp
      · have hres : s.apply_action (.pass p) = .error .wrongTurn := by
          rw [apply_action_pass, if_pos hturn]
        refine ⟨?_, ?_, ?_, ?_⟩
        · refine iff_of_false ?_ ?_
          · rintro ⟨s', hs'⟩
            rw [hres] at hs'
            exact Except.noConfusion hs'
          · intro hneg
            exact hneg (Or.inl hturn)
        · rw [hres]
          exact iff_of_true rfl hturn
        · intro p' t' e' heq
          exact absurd heq (by simp)
        · intro p' heq hp
          injection heq with h1
          subst h1
          exact absurd hp hturn

/-- Witness for C3: on the concrete initial state gs0, passing as south
fails with CannotPassFirst (no open ends yet), and passing as west fails
with WrongTurn. -/
theorem c3_apply_action_error_conditions_witness :
    gs0.apply_action (.pass .south) = .error .cannotPassFirst ∧
    gs0.apply_action (.pass .west) = .error .wrongTurn := by
  constructor
  · exact ((c3_apply_action_error_conditions gs0 (.pass .south)).2.2.2 .south
      rfl (by decide)).mpr (by decide)
  · exact (c3_apply_action_error_conditions gs0 (.pass .west)).2.1.mpr
      (by decide)

/-- C4: a successful Play sets both open ends to the tile's pip values
when none existed; otherwise it replaces the open end matching the
declared value (the left one when both match) with the tile's other pip
value and leaves the other end untouched. -/
theorem c4_open_end_update :
    ∀ (s : GameState) (p : Player) (t : Tile) (e : Nat) (s' : GameState),
      s.apply_action (.play p t e) = .ok s' →
      (s.open_ends = none → s'.open_ends = some (t.a, t.b)) ∧
      (∀ l r, s.open_ends = some (l, r) →
        (l = e → s'.open_ends = some (t.other_value e, r)) ∧
        (l ≠ e → s'.open_ends = some (l, t.other_value e))) := by
  intro s p t e s' h
  by_cases hturn : p = s.current_player
  · have hobe : ¬ (p ≠ s.current_player) := not_not_intro hturn
    rw [apply_action_play, if_neg hobe] at h
    by_cases hcv : t.contains_value e
    · by_cases hpl : t ∈ s.played_tiles
      · rw [apply_play_already s p t e hcv hpl] at h
        exact absurd h (by simp)
      · cases ho : s.open_ends with
        | none =>
            rw [apply_play_first s p t e hcv hpl ho] at h
            rw [Except.ok.injEq] at h
            subst h
            constructor
            · intro _; rfl
            · intro l r hlr
              exact absurd hlr (by simp)
        | some lr =>
            by_cases hle : e ≠ lr.1 ∧ e ≠ lr.2
            · rw [apply_play_illegal s p t e lr.1 lr.2 hcv hpl
                (by rw [ho]) hle] at h
              exact absurd h (by simp)
            · rw [apply_play_chain s p t e lr.1 lr.2 hcv hpl
                (by rw [ho]) hle] at h
              rw [Except.ok.injEq] at h
              subst h
              constructor
              · intro hc; exact absurd hc (by simp)
              · intro l r hlr
                rw [Option.some.injEq] at hlr
                have h1 : lr.1 = l := by rw [hlr]
                have h2 : lr.2 = r := by rw [hlr]
                constructor
                · intro hleq
                  show (if lr.1 = e then some (t.other_value e, lr.2)
                    else some (lr.1, t.other_value e)) =
                    some (t.other_value e, r)
                  rw [h1, h2, if_pos hleq]
                · intro hlneq
                  show (if lr.1 = e then some (t.other_value e, lr.2)
                    else some (lr.1, t.other_value e)) =
                    some (l, t.other_value e)
                  rw [h1, h2, if_neg hlneq]
    · rw [apply_play_mismatch s p t e hcv] at h
      exact absurd h (by simp)
  · rw [apply_action_play, if_pos hturn] at h
    exact absurd h (by simp)

/-- Witness for C4: on the concrete initial state, south playing the
double six yields open ends (6, 6); after that, west playing tile
four-six at end 6 replaces the left 6 by 4 and keeps the right 6. -/
theorem c4_open_end_update_witness :
    ∃ s1, gs0.apply_action (.play .south (T 6 6 (by decide)) 6) = .ok s1 ∧
      s1.open_ends = some (6, 6) ∧
      ∃ s2, s1.apply_action (.play .west (T 4 6 (by decide)) 6) = .ok s2 ∧
        s2.open_ends = some (4, 6) := by
  cases e1 : gs0.apply_action (.play .south (T 6 6 (by decide)) 6) with
  | error err =>
      have hok : (gs0.apply_action
          (.play .south (T 6 6 (by decide)) 6)).isOk = true := by decide
      rw [e1] at hok
      exact absurd hok (by simp [Except.isOk, Except.toBool])
  | ok s1 =>
      have ho1 : s1.open_ends = some (6, 6) := by
        have := (c4_open_end_update gs0 .south (T 6 6 (by decide)) 6 s1 e1).1
          rfl
        simpa [Tile.a, Tile.b, T] using this
      refine ⟨s1, rfl, ho1, ?_⟩
      cases e2 : s1.apply_action (.play .west (T 4 6 (by decide)) 6) with
      | error err =>
          have hok : ((gs0.apply_action (.play .south (T 6 6 (by decide)) 6)
              ).bind (fun s => s.apply_action
                (.play .west (T 4 6 (by decide)) 6))).isOk = true := by decide
          rw [e1] at hok
          simp only [Except.bind] at hok
          rw [e2] at hok
          exact absurd hok (by simp [Except.isOk, Except.toBool])
      | ok s2 =>
          have ho2 := (c4_open_end_update s1 .west (T 4 6 (by decide)) 6 s2
            e2).2 6 6 ho1
          refine ⟨s2, rfl, ?_⟩
          have := ho2.1 rfl
          simpa [Tile.other_value, Tile.a, Tile.b, T] using this

/-- Reading a seat of the remaining-count tuple after decrementing it. -/
theorem remAt_decAt (r : Int × Int × Int × Int) (p : Player) :
    remAt (decAt r p) p = remAt r p - 1 := by
  cases p <;> rfl

/-- C10: apply_action never consults is_game_over and imposes no lower
bound on the counts: when a seat with 0 remaining tiles is on turn (so
the game is over), a Play passing the turn, tile/end, already-played and
open-end checks is accepted and leaves that seat at -1. -/
theorem c10_no_game_over_check :
    ∀ (s : GameState) (p : Player) (t : Tile) (e : Nat),
      s.current_player = p →
      remAt s.tiles_remaining p = 0 →
      t.contains_value e →
      t ∉ s.played_tiles →
      (s.open_ends = none ∨
        ∃ l r, s.open_ends = some (l, r) ∧ (e = l ∨ e = r)) →
      s.is_game_over ∧
      ∃ s', s.apply_action (.play p t e) = .ok s' ∧
        remAt s'.tiles_remaining p = -1 := by
  intro s p t e hcur h0 hcv hpl hoe
  constructor
  · left
    cases p
    · exact Or.inl h0
    · exact Or.inr (Or.inl h0)
    · exact Or.inr (Or.inr (Or.inl h0))
    · exact Or.inr (Or.inr (Or.inr h0))
  · have hobe : ¬ (p ≠ s.current_player) := not_not_intro hcur.symm
    rcases hoe with hnone | ⟨l, r, hsome, hor⟩
    · refine ⟨_, by rw [apply_action_play, if_neg hobe,
        apply_play_first s p t e hcv hpl hnone], ?_⟩
      show remAt (decAt s.tiles_remaining p) p = -1
      rw [remAt_decAt, h0]
      rfl
    · have hle : ¬ (e ≠ l ∧ e ≠ r) := by
        intro hc
        rcases hor with hh | hh
        · exact hc.1 hh
        · exact hc.2 hh
      refine ⟨_, by rw [apply_action_play, if_neg hobe,
        apply_play_chain s p t e l r hcv hpl hsome hle], ?_⟩
      show remAt (decAt s.tiles_remaining p) p = -1
      rw [remAt_decAt, h0]
      rfl

/-- Witness for C10: in gsC10 south has 0 tiles but is on turn; playing
tile three-five at the open end 3 is accepted and leaves south at -1. -/
theorem c10_no_game_over_check_witness :
    gsC10.is_game_over ∧
    ∃ s', gsC10.apply_action (.play .south (T 3 5 (by decide)) 3) = .ok s' ∧
      remAt s'.tiles_remaining .south = -1 :=
  c10_no_game_over_check gsC10 .south (T 3 5 (by decide)) 3 rfl (by decide)
    (by decide) (by decide) (Or.inr ⟨3, 4, rfl, Or.inl rfl⟩)

/-- Every Lean tile is a member of the full 28-tile set (the Python
constructor rejects anything outside 0 ≤ a ≤ b ≤ 6). -/
theorem mem_generate_full_set (t : Tile) : t ∈ generate_full_set := by
  obtain ⟨⟨a, b⟩, hab⟩ := t
  rw [generate_full_set, List.mem_toFinset, allTilesList]
  rw [List.mem_flatMap]
  refine ⟨a, ?_, ?_⟩
  · rw [List.mem_range]
    omega
  · rw [List.mem_filterMap]
    refine ⟨b, ?_, ?_⟩
    · rw [List.mem_range]
      omega
    · rw [dif_pos hab]

/-- Invariant of reachable states: the catalog field stays the full set
and the hand stays inside it. -/
theorem reachable_inv (s : GameState) (h : ReachableGS s) :
    s.all_tiles = generate_full_set ∧ s.my_hand ⊆ generate_full_set := by
  induction h with
  | init h0 s0 hs =>
      have hsub : h0 ⊆ generate_full_set := fun t _ => mem_generate_full_set t
      by_cases hc : h0.card ≠ 7
      · rw [GameState.initial, if_pos hc] at hs
        exact absurd hs (by simp)
      · rw [GameState.initial, if_neg hc, if_neg (not_not_intro hsub)] at hs
        rw [Except.ok.injEq] at hs
        subst hs
        exact ⟨rfl, hsub⟩
  | step s0 s' a hr hs ih =>
      have hfields : s'.all_tiles = s0.all_tiles ∧ s'.my_hand ⊆ s0.my_hand := by
        cases a with
        | play p t e =>
            by_cases hturn : p = s0.current_player
            · have hobe : ¬ (p ≠ s0.current_player) := not_not_intro hturn
              rw [apply_action_play, if_neg hobe] at hs
              by_cases hcv : t.contains_value e
              · by_cases hpl : t ∈ s0.played_tiles
                · rw [apply_play_already s0 p t e hcv hpl] at hs
                  exact absurd hs (by simp)
                · cases ho : s0.open_ends with
                  | none =>
                      rw [apply_play_first s0 p t e hcv hpl ho,
                        Except.ok.injEq] at hs
                      subst hs
                      refine ⟨rfl, ?_⟩
                      show (if p = .south then s0.my_hand \ {t}
                        else s0.my_hand) ⊆ s0.my_hand
                      split
                      · exact Finset.sdiff_subset
                      · exact Finset.Subset.refl _
                  | some lr =>
                      by_cases hle : e ≠ lr.1 ∧ e ≠ lr.2
                      · rw [apply_play_illegal s0 p t e lr.1 lr.2 hcv hpl
                          (by rw [ho]) hle] at hs
                        exact absurd hs (by simp)
                      · rw [apply_play_chain s0 p t e lr.1 lr.2 hcv hpl
                          (by rw [ho]) hle, Except.ok.injEq] at hs
                        subst hs
                        refine ⟨rfl, ?_⟩
                        show (if p = .south then s0.my_hand \ {t}
                          else s0.my_hand) ⊆ s0.my_hand
                        split
                        · exact Finset.sdiff_subset
                        · exact Finset.Subset.refl _
              · rw [apply_play_mismatch s0 p t e hcv] at hs
                exact absurd hs (by simp)
            · rw [apply_action_play, if_pos hturn] at hs
              exact absurd hs (by simp)
        | pass p =>
            by_cases hturn : p = s0.current_player
            · have hobe : ¬ (p ≠ s0.current_player) := not_not_intro hturn
              rw [apply_action_pass, if_neg hobe] at hs
              cases ho : s0.open_ends with
              | none =>
                  rw [apply_pass_none s0 p ho] at hs
                  exact absurd hs (by simp)
              | some lr =>
                  rw [apply_pass_some s0 p lr.1 lr.2 (by rw [ho]),
                    Except.ok.injEq] at hs
                  subst hs
                  exact ⟨rfl, Finset.Subset.refl _⟩
            · rw [apply_action_pass, if_pos hturn] at hs
              exact absurd hs (by simp)
      exact ⟨hfields.1.trans ih.1, Finset.Subset.trans hfields.2 ih.2⟩

/-- C1 counterexample: the claimed pairwise disjointness fails on a
reachable state.  From the scenario hand, south plays the double three;
west then legally plays tile one-three, which is still in south's hand
(the code never checks an opponent's play against the observer hand), so
hand and played intersect. -/
theorem c1_counterexample :
    ∃ s, ReachableGS s ∧ (s.my_hand ∩ s.played_tiles).Nonempty := by
  have h0 : GameState.initial c2hand = .ok gs0 := by decide
  have key : ((gs0.apply_action (.play .south (T 3 3 (by decide)) 3)).bind
      (fun s1 => s1.apply_action (.play .west (T 1 3 (by decide)) 3))).map
      (fun s2 => decide (s2.my_hand ∩ s2.played_tiles).Nonempty) =
      .ok true := by decide
  cases e1 : gs0.apply_action (.play .south (T 3 3 (by decide)) 3) with
  | error err =>
      rw [e1] at key
      exact absurd key (by simp [Except.bind, Except.map])
  | ok s1 =>
      rw [e1] at key
      simp only [Except.bind] at key
      cases e2 : s1.apply_action (.play .west (T 1 3 (by decide)) 3) with
      | error err =>
          rw [e2] at key
          exact absurd key (by simp [Except.map])
      | ok s2 =>
          rw [e2] at key
          simp only [Except.map] at key
          rw [Except.ok.injEq] at key
          refine ⟨s2, ?_, of_decide_eq_true key⟩
          exact ReachableGS.step s1 s2 _
            (ReachableGS.step gs0 s1 _
              (ReachableGS.init c2hand gs0 h0) e1) e2

/-- C1 amended: for every reachable state, hand, played and unknown
tiles cover the catalog exactly, and the unknown set is disjoint from
both the hand and the played set; the hand and the played set, however,
may intersect (see the counterexample). -/
theorem c1_amended_partition :
    ∀ s, ReachableGS s →
      s.my_hand ∪ s.played_tiles ∪ s.unknown_tiles = s.all_tiles ∧
      s.all_tiles = generate_full_set ∧
      s.my_hand ∩ s.unknown_tiles = ∅ ∧
      s.played_tiles ∩ s.unknown_tiles = ∅ := by
  intro s h
  have hinv := reachable_inv s h
  have hhand : s.my_hand ⊆ s.all_tiles := by
    rw [hinv.1]
    exact hinv.2
  have hplay : s.played_tiles ⊆ s.all_tiles := by
    rw [hinv.1]
    exact fun t _ => mem_generate_full_set t
  refine ⟨?_, hinv.1, ?_, ?_⟩
  · ext t
    simp only [GameState.unknown_tiles, Finset.mem_union, Finset.mem_sdiff]
    constructor
    · rintro ((ht | ht) | ⟨⟨ht, _⟩, _⟩)
      · exact hhand ht
      · exact hplay ht
      · exact ht
    · intro ht
      by_cases h1 : t ∈ s.my_hand
      · exact Or.inl (Or.inl h1)
      · by_cases h2 : t ∈ s.played_tiles
        · exact Or.inl (Or.inr h2)
        · exact Or.inr ⟨⟨ht, h1⟩, h2⟩
  · ext t
    simp only [GameState.unknown_tiles, Finset.mem_inter, Finset.mem_sdiff,
      Finset.not_mem_empty, iff_false]
    intro hc
    exact hc.2.1.2 hc.1
  · ext t
    simp only [GameState.unknown_tiles, Finset.mem_inter, Finset.mem_sdiff,
      Finset.not_mem_empty, iff_false]
    intro hc
    exact hc.2.2 hc.1

/-- Witness for C1 (amended): the partition equality holds on the
concrete initial state of the scenario hand. -/
theorem c1_amended_partition_witness :
    gs0.my_hand ∪ gs0.played_tiles ∪ gs0.unknown_tiles = gs0.all_tiles :=
  (c1_amended_partition gs0
    (ReachableGS.init c2hand gs0 (by decide))).1

/-! Lemmas about the sorted unknown-tile list. -/

theorem allTilesList_nodup : allTilesList.Nodup := by decide

theorem mem_allTilesList (t : Tile) : t ∈ allTilesList := by
  have := mem_generate_full_set t
  rw [generate_full_set, List.mem_toFinset] at this
  exact this

theorem sortedUnknown_nodup (c : ConstraintSet) : c.sortedUnknown.Nodup :=
  List.Nodup.filter _ allTilesList_nodup

theorem mem_sortedUnknown (c : ConstraintSet) (t : Tile) :
    t ∈ c.sortedUnknown ↔ t ∈ c.unknown_tiles := by
  unfold ConstraintSet.sortedUnknown
  rw [List.mem_filter]
  constructor
  · intro h
    exact of_decide_eq_true h.2
  · intro h
    exact ⟨mem_allTilesList t, decide_eq_true h⟩

theorem sortedUnknown_toFinset (c : ConstraintSet) :
    c.sortedUnknown.toFinset = c.unknown_tiles := by
  ext t
  rw [List.mem_toFinset, mem_sortedUnknown]

theorem sortedUnknown_length (c : ConstraintSet) :
    c.sortedUnknown.length = c.unknown_tiles.card := by
  rw [← sortedUnknown_toFinset, List.toFinset_card_of_nodup
    (sortedUnknown_nodup c)]

/-! Generic summation helpers used by the probability proofs. -/

theorem sum_range_match {M : Type} [AddCommMonoid M] (l : List Tile)
    (f : Tile → M) :
    ∑ i in Finset.range l.length,
      (match l[i]? with | some t => f t | none => 0) = (l.map f).sum := by
  induction l with
  | nil => simp
  | cons a tl ih =>
      rw [List.length_cons, Finset.sum_range_succ']
      simp only [List.getElem?_cons_succ, List.getElem?_cons_zero]
      rw [ih, List.map_cons, List.sum_cons]
      exact add_comm _ _

theorem list_sum_over_toFinset {M : Type} [AddCommMonoid M] (l : List Tile)
    (hl : l.Nodup) (f : Tile → M) :
    (l.map f).sum = ∑ t in l.toFinset, f t := by
  induction l with
  | nil => simp
  | cons a tl ih =>
      rw [List.map_cons, List.sum_cons, List.toFinset_cons]
      have hna : a ∉ tl := (List.nodup_cons.mp hl).1
      have hnaf : a ∉ tl.toFinset := by
        rw [List.mem_toFinset]
        exact hna
      rw [Finset.sum_insert hnaf, ih (List.nodup_cons.mp hl).2]

theorem list_map_sum_add (l : List (List Nat)) (f g : List Nat → Nat) :
    (l.map (fun x => f x + g x)).sum = (l.map f).sum + (l.map g).sum := by
  induction l with
  | nil => simp
  | cons a tl ih =>
      simp only [List.map_cons, List.sum_cons, ih]
      omega

theorem sum_finset_list (l : List (List Nat)) (F : List Nat → Nat → Nat)
    (s : Finset Nat) :
    ∑ i in s, (l.map (fun p => F p i)).sum =
      (l.map (fun p => ∑ i in s, F p i)).sum := by
  induction l with
  | nil => simp
  | cons a tl ih =>
      simp only [List.map_cons, List.sum_cons, Finset.sum_add_distrib, ih]

theorem sum_count_range (l : List Nat) (n : Nat) (hl : ∀ x ∈ l, x < n) :
    ∑ i in Finset.range n, l.count i = l.length := by
  induction l with
  | nil => simp
  | cons a tl ih =>
      have ha : a < n := hl a (List.mem_cons_self a tl)
      have hsum : ∑ i in Finset.range n, (a :: tl).count i =
          ∑ i in Finset.range n, (tl.count i + if a = i then 1 else 0) := by
        apply Finset.sum_congr rfl
        intro i _
        rw [List.count_cons]
        simp only [beq_iff_eq]
      rw [hsum, Finset.sum_add_distrib,
        ih (fun x hx => hl x (List.mem_cons_of_mem a hx)),
        Finset.sum_ite_eq (Finset.range n) a (fun _ => 1),
        if_pos (Finset.mem_range.mpr ha), List.length_cons]

/-! Lemmas about the exact-enumeration engine. -/

theorem mem_exactConfigs (c : ConstraintSet) (q : Finset Tile × Finset Tile) :
    q ∈ c.exactConfigs ↔
      q.1 ⊆ c.candRestr .west ∧ q.1.card = c.remNat .west ∧
      q.2 ⊆ c.candRestr .north ∧ q.2.card = c.remNat .north ∧
      q.1 ∩ q.2 = ∅ ∧
      ((c.unknown_tiles \ q.1) \ q.2).card = c.remNat .east ∧
      (c.unknown_tiles \ q.1) \ q.2 ⊆ c.candRestr .east := by
  unfold ConstraintSet.exactConfigs
  rw [Finset.mem_filter, Finset.mem_product, Finset.mem_powersetCard,
    Finset.mem_powersetCard]
  tauto

theorem exactPart_subset_cand (c : ConstraintSet)
    (q : Finset Tile × Finset Tile) (o : Opp) (hq : q ∈ c.exactConfigs) :
    c.exactPart q o ⊆ (c.pc o).candidate_tiles := by
  rw [mem_exactConfigs] at hq
  have hcr : ∀ o' : Opp, c.candRestr o' ⊆ (c.pc o').candidate_tiles :=
    fun o' => Finset.inter_subset_left
  cases o
  · exact Finset.Subset.trans hq.1 (hcr .west)
  · exact Finset.Subset.trans hq.2.2.1 (hcr .north)
  · exact Finset.Subset.trans hq.2.2.2.2.2.2 (hcr .east)

theorem exactPart_subset_unknown (c : ConstraintSet)
    (q : Finset Tile × Finset Tile) (o : Opp) (hq : q ∈ c.exactConfigs) :
    c.exactPart q o ⊆ c.unknown_tiles := by
  rw [mem_exactConfigs] at hq
  have hcr : ∀ o' : Opp, c.candRestr o' ⊆ c.unknown_tiles :=
    fun o' => Finset.inter_subset_right
  cases o
  · exact Finset.Subset.trans hq.1 (hcr .west)
  · exact Finset.Subset.trans hq.2.2.1 (hcr .north)
  · exact Finset.Subset.trans Finset.sdiff_subset Finset.sdiff_subset

theorem exactPart_card (c : ConstraintSet) (q : Finset Tile × Finset Tile)
    (o : Opp) (hq : q ∈ c.exactConfigs) :
    (c.exactPart q o).card = c.remNat o := by
  rw [mem_exactConfigs] at hq
  cases o
  · exact hq.2.1
  · exact hq.2.2.2.1
  · exact hq.2.2.2.2.2.1

theorem exactPart_ite_sum (c : ConstraintSet)
    (q : Finset Tile × Finset Tile) (hq : q ∈ c.exactConfigs) (t : Tile)
    (ht : t ∈ c.unknown_tiles) :
    ((if t ∈ c.exactPart q .west then 1 else 0) +
     (if t ∈ c.exactPart q .north then 1 else 0) +
     (if t ∈ c.exactPart q .east then 1 else 0) : Nat) = 1 := by
  rw [mem_exactConfigs] at hq
  have hdisj := hq.2.2.2.2.1
  show ((if t ∈ q.1 then 1 else 0) + (if t ∈ q.2 then 1 else 0) +
    (if t ∈ (c.unknown_tiles \ q.1) \ q.2 then 1 else 0) : Nat) = 1
  by_cases h1 : t ∈ q.1
  · have h2 : t ∉ q.2 := by
      intro h2
      have : t ∈ q.1 ∩ q.2 := Finset.mem_inter.mpr ⟨h1, h2⟩
      rw [hdisj] at this
      exact Finset.not_mem_empty t this
    have h3 : t ∉ (c.unknown_tiles \ q.1) \ q.2 := by
      intro h3
      exact (Finset.mem_sdiff.mp (Finset.mem_sdiff.mp h3).1).2 h1
    rw [if_pos h1, if_neg h2, if_neg h3]
  · by_cases h2 : t ∈ q.2
    · have h3 : t ∉ (c.unknown_tiles \ q.1) \ q.2 := by
        intro h3
        exact (Finset.mem_sdiff.mp h3).2 h2
      rw [if_neg h1, if_pos h2, if_neg h3]
    · have h3 : t ∈ (c.unknown_tiles \ q.1) \ q.2 :=
        Finset.mem_sdiff.mpr ⟨Finset.mem_sdiff.mpr ⟨ht, h1⟩, h2⟩
      rw [if_neg h1, if_neg h2, if_pos h3]

theorem countE_le_total (c : ConstraintSet) (o : Opp) (t : Tile) :
    c.countE o t ≤ c.totalE :=
  Finset.card_filter_le _ _

theorem countE_eq_zero (c : ConstraintSet) (o : Opp) (t : Tile)
    (ht : t ∉ (c.pc o).candidate_tiles) : c.countE o t = 0 := by
  unfold ConstraintSet.countE
  rw [Finset.card_eq_zero, Finset.filter_eq_empty_iff]
  intro q hq hm
  exact ht (exactPart_subset_cand c q o hq hm)

theorem countE_col (c : ConstraintSet) (t : Tile)
    (ht : t ∈ c.unknown_tiles) :
    c.countE .west t + c.countE .north t + c.countE .east t = c.totalE := by
  unfold ConstraintSet.countE ConstraintSet.totalE
  rw [Finset.card_filter, Finset.card_filter, Finset.card_filter,
    ← Finset.sum_add_distrib, ← Finset.sum_add_distrib,
    Finset.card_eq_sum_ones]
  apply Finset.sum_congr rfl
  intro q hq
  exact exactPart_ite_sum c q hq t ht

theorem countE_row (c : ConstraintSet) (o : Opp) :
    ∑ t in c.unknown_tiles, c.countE o t = c.totalE * c.remNat o := by
  unfold ConstraintSet.countE ConstraintSet.totalE
  have step1 : ∀ t : Tile,
      (c.exactConfigs.filter (fun q => t ∈ c.exactPart q o)).card =
      ∑ q in c.exactConfigs, (if t ∈ c.exactPart q o then 1 else 0) :=
    fun t => Finset.card_filter _ _
  rw [Finset.sum_congr rfl (fun t _ => step1 t), Finset.sum_comm]
  have step2 : ∀ q ∈ c.exactConfigs,
      ∑ t in c.unknown_tiles, (if t ∈ c.exactPart q o then 1 else 0) =
      c.remNat o := by
    intro q hq
    rw [← Finset.card_filter, Finset.filter_mem_eq_inter,
      Finset.inter_eq_right.mpr (exactPart_subset_unknown c q o hq)]
    exact exactPart_card c q o hq
  rw [Finset.sum_congr rfl step2, Finset.sum_const, smul_eq_mul]

theorem exact_marginals_ok (c : ConstraintSet) (pt : ProbabilityTable)
    (h : exact_marginals c = .ok pt) :
    pt.tiles = c.sortedUnknown ∧
    c.unknown_tiles.card ≤ 18 ∧
    (∀ o : Opp, 0 ≤ (c.pc o).tiles_remaining) ∧
    c.totalE ≠ 0 ∧
    pt.probs = fun o i =>
      match c.sortedUnknown[i]? with
      | some t => (c.countE o t : ℚ) / (c.totalE : ℚ)
      | none => 0 := by
  unfold exact_marginals at h
  by_cases h1 : 18 < c.unknown_tiles.card
  · rw [if_pos h1] at h
    exact absurd h (by simp)
  · rw [if_neg h1] at h
    by_cases h2 : (c.pc .west).tiles_remaining < 0 ∨
        (c.pc .north).tiles_remaining < 0 ∨ (c.pc .east).tiles_remaining < 0
    · rw [if_pos h2] at h
      exact absurd h (by simp)
    · rw [if_neg h2] at h
      by_cases h3 : c.totalE = 0
      · rw [if_pos h3] at h
        exact absurd h (by simp)
      · rw [if_neg h3, Except.ok.injEq] at h
        subst h
        push_neg at h2
        refine ⟨rfl, by omega, ?_, h3, rfl⟩
        intro o
        cases o
        · exact h2.1
        · exact h2.2.1
        · exact h2.2.2

/-! Lemmas about the rejection-sampling engine. -/

theorem list_map_const_sum (l : List (List Nat)) (k : Nat) :
    (l.map (fun _ => k)).sum = l.length * k := by
  induction l with
  | nil => simp
  | cons a tl ih =>
      simp only [List.map_cons, List.sum_cons, List.length_cons, ih]
      ring

theorem mem_mcAccepted (c : ConstraintSet) (trials : List (List Nat))
    (p : List Nat) :
    p ∈ c.mcAccepted trials ↔ p ∈ trials ∧ c.mcAccept p := by
  unfold ConstraintSet.mcAccepted
  rw [List.mem_filter, decide_eq_true_eq]

theorem mcAccept_sum (c : ConstraintSet) (p : List Nat)
    (hnn : ∀ o : Opp, 0 ≤ (c.pc o).tiles_remaining)
    (hacc : c.mcAccept p) :
    c.remNat .west + c.remNat .north + c.remNat .east =
      c.sortedUnknown.length := by
  have h := hacc.2.2.2
  have hw := hnn .west
  have hn := hnn .north
  have he := hnn .east
  unfold ConstraintSet.remNat
  omega

theorem mcSlice_length (c : ConstraintSet) (p : List Nat)
    (hlen : p.length = c.sortedUnknown.length)
    (hsum : c.remNat .west + c.remNat .north + c.remNat .east =
      c.sortedUnknown.length) (o : Opp) :
    (c.mcSlice p o).length = c.remNat o := by
  cases o <;>
    simp only [ConstraintSet.mcSlice, List.length_take, List.length_drop,
      hlen] <;> omega

theorem mcSlice_append (c : ConstraintSet) (p : List Nat)
    (hlen : p.length = c.sortedUnknown.length)
    (hsum : c.remNat .west + c.remNat .north + c.remNat .east =
      c.sortedUnknown.length) :
    c.mcSlice p .west ++ (c.mcSlice p .north ++ c.mcSlice p .east) = p := by
  show p.take (c.remNat .west) ++
    ((p.drop (c.remNat .west)).take (c.remNat .north) ++
      (p.drop (c.remNat .west + c.remNat .north)).take (c.remNat .east)) = p
  have h2 : (p.drop (c.remNat .west + c.remNat .north)).take
      (c.remNat .east) = p.drop (c.remNat .west + c.remNat .north) := by
    apply List.take_of_length_le
    rw [List.length_drop, hlen]
    omega
  have h1 : p.drop (c.remNat .west + c.remNat .north) =
      (p.drop (c.remNat .west)).drop (c.remNat .north) := by
    rw [List.drop_drop, Nat.add_comm]
  rw [h2, h1, List.take_append_drop, List.take_append_drop]

theorem mcSlice_sublist (c : ConstraintSet) (p : List Nat) (o : Opp) :
    (c.mcSlice p o).Sublist p := by
  cases o
  · exact List.take_sublist _ _
  · exact (List.take_sublist _ _).trans (List.drop_sublist _ _)
  · exact (List.take_sublist _ _).trans (List.drop_sublist _ _)

theorem mcSlice_nodup (c : ConstraintSet) (p : List Nat) (o : Opp)
    (hnd : p.Nodup) : (c.mcSlice p o).Nodup :=
  List.Nodup.sublist (mcSlice_sublist c p o) hnd

theorem mcAccept_mask (c : ConstraintSet) (p : List Nat) (o : Opp)
    (hacc : c.mcAccept p) : ∀ i ∈ c.mcSlice p o, c.inMask o i := by
  cases o
  · exact hacc.1
  · exact hacc.2.1
  · exact hacc.2.2.1

theorem mcCount_le (c : ConstraintSet) (trials : List (List Nat))
    (o : Opp) (i : Nat)
    (hperm : ∀ p ∈ trials, p.Perm (List.range c.sortedUnknown.length)) :
    c.mcCount trials o i ≤ (c.mcAccepted trials).length := by
  unfold ConstraintSet.mcCount
  have hb : ∀ x ∈ (c.mcAccepted trials).map
      (fun p => (c.mcSlice p o).count i), x ≤ 1 := by
    intro x hx
    rw [List.mem_map] at hx
    obtain ⟨p, hp, hfx⟩ := hx
    rw [mem_mcAccepted] at hp
    have hpp := hperm p hp.1
    have hnd : p.Nodup := hpp.nodup_iff.mpr (List.nodup_range _)
    rw [← hfx]
    exact List.nodup_iff_count_le_one.mp (mcSlice_nodup c p o hnd) i
  have := List.sum_le_card_nsmul _ 1 hb
  simpa using this

theorem mcCount_col (c : ConstraintSet) (trials : List (List Nat)) (i : Nat)
    (hperm : ∀ p ∈ trials, p.Perm (List.range c.sortedUnknown.length))
    (hnn : ∀ o : Opp, 0 ≤ (c.pc o).tiles_remaining)
    (hi : i < c.sortedUnknown.length) :
    c.mcCount trials .west i + c.mcCount trials .north i +
      c.mcCount trials .east i = (c.mcAccepted trials).length := by
  unfold ConstraintSet.mcCount
  rw [← list_map_sum_add, ← list_map_sum_add]
  have hcongr : ∀ p ∈ c.mcAccepted trials,
      (fun p => (c.mcSlice p .west).count i + (c.mcSlice p .north).count i +
        (c.mcSlice p .east).count i) p = (fun _ => (1 : Nat)) p := by
    intro p hp
    rw [mem_mcAccepted] at hp
    have hpp := hperm p hp.1
    have hlen : p.length = c.sortedUnknown.length := by
      rw [hpp.length_eq, List.length_range]
    have hsum := mcAccept_sum c p hnn hp.2
    have happ := mcSlice_append c p hlen hsum
    have hcc : ((c.mcSlice p .west) ++
        ((c.mcSlice p .north) ++ (c.mcSlice p .east))).count i =
        p.count i := by rw [happ]
    rw [List.count_append, List.count_append] at hcc
    have hcnt : p.count i = 1 := by
      rw [hpp.count_eq]
      exact List.count_eq_one_of_mem (List.nodup_range _)
        (List.mem_range.mpr hi)
    show (c.mcSlice p .west).count i + (c.mcSlice p .north).count i +
      (c.mcSlice p .east).count i = 1
    omega
  rw [List.map_congr_left hcongr, list_map_const_sum, Nat.mul_one]

theorem mcCount_row (c : ConstraintSet) (trials : List (List Nat)) (o : Opp)
    (hperm : ∀ p ∈ trials, p.Perm (List.range c.sortedUnknown.length))
    (hnn : ∀ o : Opp, 0 ≤ (c.pc o).tiles_remaining) :
    ∑ i in Finset.range c.sortedUnknown.length, c.mcCount trials o i =
      (c.mcAccepted trials).length * c.remNat o := by
  unfold ConstraintSet.mcCount
  rw [sum_finset_list]
  have hcongr : ∀ p ∈ c.mcAccepted trials,
      (fun p => ∑ i in Finset.range c.sortedUnknown.length,
        (c.mcSlice p o).count i) p = (fun _ => c.remNat o) p := by
    intro p hp
    rw [mem_mcAccepted] at hp
    have hpp := hperm p hp.1
    have hlen : p.length = c.sortedUnknown.length := by
      rw [hpp.length_eq, List.length_range]
    have hsum := mcAccept_sum c p hnn hp.2
    have hmem : ∀ x ∈ c.mcSlice p o, x < c.sortedUnknown.length := by
      intro x hx
      have hxp : x ∈ p := (mcSlice_sublist c p o).subset hx
      exact List.mem_range.mp (hpp.mem_iff.mp hxp)
    show (∑ i in Finset.range c.sortedUnknown.length,
      (c.mcSlice p o).count i) = c.remNat o
    rw [sum_count_range _ _ hmem, mcSlice_length c p hlen hsum o]
  rw [List.map_congr_left hcongr, list_map_const_sum]

theorem mcCount_zero (c : ConstraintSet) (trials : List (List Nat))
    (o : Opp) (i : Nat) (hm : ¬ c.inMask o i) :
    c.mcCount trials o i = 0 := by
  unfold ConstraintSet.mcCount
  apply List.sum_eq_zero
  intro x hx
  rw [List.mem_map] at hx
  obtain ⟨p, hp, hfx⟩ := hx
  rw [mem_mcAccepted] at hp
  rw [← hfx, List.count_eq_zero]
  intro hmem
  exact hm (mcAccept_mask c p o hp.2 i hmem)

theorem monte_carlo_ok (c : ConstraintSet) (trials : List (List Nat))
    (pt : ProbabilityTable) (h : monte_carlo_marginals c trials = .ok pt) :
    pt.tiles = c.sortedUnknown ∧ (c.mcAccepted trials).length ≠ 0 ∧
    pt.probs = fun o i => (c.mcCount trials o i : ℚ) /
      ((c.mcAccepted trials).length : ℚ) := by
  by_cases h0 : (c.mcAccepted trials).length = 0
  · exfalso
    simp only [monte_carlo_marginals, if_pos h0] at h
    exact Except.noConfusion h
  · simp only [monte_carlo_marginals, if_neg h0, Except.ok.injEq] at h
    subst h
    exact ⟨rfl, h0, rfl⟩

theorem match_getElem_some (f : Tile → ℚ) (l : List Tile) (i : Nat)
    (t : Tile) (hget : l[i]? = some t) :
    (match l[i]? with | some t => f t | none => 0) = f t := by
  rw [hget]

theorem match_getElem_none (f : Tile → ℚ) (l : List Tile) (i : Nat)
    (hget : l[i]? = none) :
    (match l[i]? with | some t => f t | none => 0) = 0 := by
  rw [hget]

theorem remNat_cast (c : ConstraintSet) (o : Opp)
    (hnn : 0 ≤ (c.pc o).tiles_remaining) :
    ((c.remNat o : Nat) : ℚ) = ((c.pc o).tiles_remaining : ℚ) := by
  unfold ConstraintSet.remNat
  rw [← Int.cast_natCast, Int.toNat_of_nonneg hnn]

/-- C7: every probability table produced by exact_marginals or by
monte_carlo_marginals (for shuffle streams that are permutations of the
tile indices, as numpy shuffles are, and nonnegative remaining counts)
has all entries in [0, 1], tile columns summing to 1, opponent rows
summing to that opponent's remaining count, and exact zeros for tiles
outside an opponent's candidate set. -/
theorem c7_table_invariants :
    (∀ (c : ConstraintSet) (pt : ProbabilityTable),
      exact_marginals c = .ok pt → tableInv c pt) ∧
    (∀ (c : ConstraintSet) (trials : List (List Nat))
      (pt : ProbabilityTable),
      (∀ p ∈ trials, p.Perm (List.range c.sortedUnknown.length)) →
      (∀ o : Opp, 0 ≤ (c.pc o).tiles_remaining) →
      monte_carlo_marginals c trials = .ok pt → tableInv c pt) := by
  constructor
  · intro c pt h
    obtain ⟨htiles, hcard, hnn, htot, hprobs⟩ := exact_marginals_ok c pt h
    have htotpos : (0 : ℚ) < (c.totalE : ℚ) :=
      Nat.cast_pos.mpr (Nat.pos_of_ne_zero htot)
    refine ⟨htiles, ?_, ?_, ?_, ?_⟩
    · intro o i
      simp only [hprobs]
      cases hget : c.sortedUnknown[i]? with
      | none =>
          refine ⟨le_refl 0, ?_⟩
          show (0 : ℚ) ≤ 1
          norm_num
      | some t =>
          constructor
          · exact div_nonneg (Nat.cast_nonneg _) (le_of_lt htotpos)
          · show (c.countE o t : ℚ) / (c.totalE : ℚ) ≤ 1
            rw [div_le_one htotpos]
            exact_mod_cast countE_le_total c o t
    · intro i hi
      rw [htiles] at hi
      have hget : c.sortedUnknown[i]? = some c.sortedUnknown[i] :=
        List.getElem?_eq_getElem hi
      have hmem : c.sortedUnknown[i] ∈ c.unknown_tiles := by
        rw [← mem_sortedUnknown]
        exact List.getElem_mem hi
      simp only [hprobs]
      rw [match_getElem_some _ _ _ _ hget, match_getElem_some _ _ _ _ hget,
        match_getElem_some _ _ _ _ hget, div_add_div_same, div_add_div_same]
      have hcol := countE_col c c.sortedUnknown[i] hmem
      rw [show ((c.countE .west c.sortedUnknown[i] : ℚ) +
          (c.countE .north c.sortedUnknown[i] : ℚ) +
          (c.countE .east c.sortedUnknown[i] : ℚ)) = ((c.totalE : Nat) : ℚ)
        by exact_mod_cast congrArg (Nat.cast : Nat → ℚ) hcol]
      exact div_self (ne_of_gt htotpos)
    · intro o
      rw [htiles]
      have hsum : ∀ i ∈ Finset.range c.sortedUnknown.length,
          pt.probs o i = (match c.sortedUnknown[i]? with
            | some t => (c.countE o t : ℚ) / (c.totalE : ℚ)
            | none => 0) := by
        intro i _
        simp only [hprobs]
      rw [Finset.sum_congr rfl hsum, sum_range_match,
        list_sum_over_toFinset _ (sortedUnknown_nodup c),
        sortedUnknown_toFinset, ← Finset.sum_div]
      rw [show (∑ t in c.unknown_tiles, (c.countE o t : ℚ)) =
          ((c.totalE * c.remNat o : Nat) : ℚ) by
        exact_mod_cast congrArg (Nat.cast : Nat → ℚ) (countE_row c o)]
      push_cast
      rw [mul_comm, mul_div_assoc, div_self (ne_of_gt htotpos), mul_one]
      exact remNat_cast c o (hnn o)
    · intro o i t hget hcand
      rw [htiles] at hget
      simp only [hprobs]
      rw [match_getElem_some _ _ _ _ hget, countE_eq_zero c o t hcand]
      simp
  · intro c trials pt hperm hnn h
    obtain ⟨htiles, hne, hprobs⟩ := monte_carlo_ok c trials pt h
    have hlenpos : (0 : ℚ) < ((c.mcAccepted trials).length : ℚ) :=
      Nat.cast_pos.mpr (Nat.pos_of_ne_zero hne)
    refine ⟨htiles, ?_, ?_, ?_, ?_⟩
    · intro o i
      simp only [hprobs]
      constructor
      · exact div_nonneg (Nat.cast_nonneg _) (le_of_lt hlenpos)
      · rw [div_le_one hlenpos]
        exact_mod_cast mcCount_le c trials o i hperm
    · intro i hi
      rw [htiles] at hi
      simp only [hprobs]
      rw [div_add_div_same, div_add_div_same]
      rw [show ((c.mcCount trials .west i : ℚ) +
          (c.mcCount trials .north i : ℚ) +
          (c.mcCount trials .east i : ℚ)) =
          (((c.mcAccepted trials).length : Nat) : ℚ) by
        exact_mod_cast congrArg (Nat.cast : Nat → ℚ)
          (mcCount_col c trials i hperm hnn hi)]
      exact div_self (ne_of_gt hlenpos)
    · intro o
      rw [htiles]
      simp only [hprobs]
      rw [← Finset.sum_div]
      rw [show (∑ i in Finset.range c.sortedUnknown.length,
          (c.mcCount trials o i : ℚ)) =
          (((c.mcAccepted trials).length * c.remNat o : Nat) : ℚ) by
        exact_mod_cast congrArg (Nat.cast : Nat → ℚ)
          (mcCount_row c trials o hperm hnn)]
      push_cast
      rw [mul_comm, mul_div_assoc, div_self (ne_of_gt hlenpos), mul_one]
      exact remNat_cast c o (hnn o)
    · intro o i t hget hcand
      rw [htiles] at hget
      have hm : ¬ c.inMask o i := by
        unfold ConstraintSet.inMask
        rw [hget]
        intro hmem
        exact hcand hmem
      simp only [hprobs]
      rw [mcCount_zero c trials o i hm]
      simp

/-- Witness for C7: both engines succeed on the three-unknown scenario
and the resulting tables satisfy the invariants. -/
theorem c7_table_invariants_witness :
    (∃ pt, exact_marginals c7cs = .ok pt ∧ tableInv c7cs pt) ∧
    (∃ pt, monte_carlo_marginals c7cs [[0, 1, 2]] = .ok pt ∧
      tableInv c7cs pt) := by
  constructor
  · cases he : exact_marginals c7cs with
    | error e =>
        have hok : (exact_marginals c7cs).isOk = true := by decide
        rw [he] at hok
        exact absurd hok (by simp [Except.isOk, Except.toBool])
    | ok pt => exact ⟨pt, rfl, c7_table_invariants.1 c7cs pt he⟩
  · cases hm : monte_carlo_marginals c7cs [[0, 1, 2]] with
    | error e =>
        have hok : (monte_carlo_marginals c7cs [[0, 1, 2]]).isOk = true := by
          decide
        rw [hm] at hok
        exact absurd hok (by simp [Except.isOk, Except.toBool])
    | ok pt =>
        exact ⟨pt, rfl, c7_table_invariants.2 c7cs [[0, 1, 2]] pt
          (by decide) (fun o => by cases o <;> decide) hm⟩

theorem monte_carlo_not_tooMany (c : ConstraintSet)
    (trials : List (List Nat)) :
    monte_carlo_marginals c trials ≠ .error .tooManyUnknowns := by
  by_cases h0 : (c.mcAccepted trials).length = 0
  · simp only [monte_carlo_marginals, if_pos h0]
    simp
  · simp only [monte_carlo_marginals, if_neg h0]
    simp

/-- C8: auto_marginals dispatches to exact enumeration exactly when the
unknown count is at most 15 and to rejection sampling otherwise;
exact_marginals fails with TooManyUnknowns exactly when the unknown
count exceeds 18; both engines fail with NoValidConfiguration exactly
when zero partitions/trials are accepted (for exact, with nonnegative
remaining counts, below the ceiling); and the auto dispatch path can
never produce TooManyUnknowns. -/
theorem c8_dispatch_and_failures :
    (∀ (c : ConstraintSet) (trials : List (List Nat)),
      c.unknown_tiles.card ≤ 15 →
      auto_marginals c trials = exact_marginals c) ∧
    (∀ (c : ConstraintSet) (trials : List (List Nat)),
      15 < c.unknown_tiles.card →
      auto_marginals c trials = monte_carlo_marginals c trials) ∧
    (∀ c : ConstraintSet,
      (exact_marginals c = .error .tooManyUnknowns ↔
        18 < c.unknown_tiles.card)) ∧
    (∀ c : ConstraintSet, (∀ o : Opp, 0 ≤ (c.pc o).tiles_remaining) →
      (exact_marginals c = .error .noValidConfiguration ↔
        c.unknown_tiles.card ≤ 18 ∧ c.totalE = 0)) ∧
    (∀ (c : ConstraintSet) (trials : List (List Nat)),
      (monte_carlo_marginals c trials = .error .noValidConfiguration ↔
        (c.mcAccepted trials).length = 0)) ∧
    (∀ (c : ConstraintSet) (trials : List (List Nat)),
      auto_marginals c trials ≠ .error .tooManyUnknowns) := by
  have hexact_tooMany : ∀ c : ConstraintSet,
      (exact_marginals c = .error .tooManyUnknowns ↔
        18 < c.unknown_tiles.card) := by
    intro c
    unfold exact_marginals
    by_cases h1 : 18 < c.unknown_tiles.card
    · rw [if_pos h1]
      exact iff_of_true rfl h1
    · rw [if_neg h1]
      refine iff_of_false ?_ h1
      by_cases h2 : (c.pc .west).tiles_remaining < 0 ∨
          (c.pc .north).tiles_remaining < 0 ∨
          (c.pc .east).tiles_remaining < 0
      · rw [if_pos h2]
        simp
      · rw [if_neg h2]
        by_cases h3 : c.totalE = 0
        · rw [if_pos h3]
          simp
        · rw [if_neg h3]
          simp
  refine ⟨?_, ?_, hexact_tooMany, ?_, ?_, ?_⟩
  · intro c trials hc
    unfold auto_marginals
    rw [if_pos (show c.unknown_tiles.card ≤ EXACT_THRESHOLD from hc)]
  · intro c trials hc
    unfold auto_marginals
    rw [if_neg (show ¬ c.unknown_tiles.card ≤ EXACT_THRESHOLD by
      unfold EXACT_THRESHOLD; omega)]
  · intro c hnn
    unfold exact_marginals
    by_cases h1 : 18 < c.unknown_tiles.card
    · rw [if_pos h1]
      refine iff_of_false (by simp) ?_
      intro hc
      omega
    · rw [if_neg h1]
      have h2 : ¬ ((c.pc .west).tiles_remaining < 0 ∨
          (c.pc .north).tiles_remaining < 0 ∨
          (c.pc .east).tiles_remaining < 0) := by
        push_neg
        exact ⟨hnn .west, hnn .north, hnn .east⟩
      rw [if_neg h2]
      by_cases h3 : c.totalE = 0
      · rw [if_pos h3]
        exact iff_of_true rfl ⟨by omega, h3⟩
      · rw [if_neg h3]
        refine iff_of_false (by simp) ?_
        intro hc
        exact h3 hc.2
  · intro c trials
    by_cases h0 : (c.mcAccepted trials).length = 0
    · simp only [monte_carlo_marginals, if_pos h0]
      exact iff_of_true trivial h0
    · simp only [monte_carlo_marginals, if_neg h0]
      exact iff_of_false (by simp) h0
  · intro c trials
    unfold auto_marginals
    by_cases hc : c.unknown_tiles.card ≤ EXACT_THRESHOLD
    · rw [if_pos hc]
      intro he
      have := (hexact_tooMany c).mp he
      unfold EXACT_THRESHOLD at hc
      omega
    · rw [if_neg hc]
      exact monte_carlo_not_tooMany c trials

/-- Witness for C8: on concrete constraint sets, auto dispatches to
exact below the threshold and to sampling above it; the 28-unknown
chain scenario makes exact_marginals fail with TooManyUnknowns; and the
contradictory two-opponent scenario fails with NoValidConfiguration in
both engines. -/
theorem c8_dispatch_and_failures_witness :
    auto_marginals c7cs [] = exact_marginals c7cs ∧
    auto_marginals c6cs [] = monte_carlo_marginals c6cs [] ∧
    exact_marginals c6cs = .error .tooManyUnknowns ∧
    exact_marginals c8cs = .error .noValidConfiguration ∧
    monte_carlo_marginals c8cs [] = .error .noValidConfiguration :=
  ⟨c8_dispatch_and_failures.1 c7cs [] (by decide),
   c8_dispatch_and_failures.2.1 c6cs [] (by decide),
   (c8_dispatch_and_failures.2.2.1 c6cs).mpr (by decide),
   (c8_dispatch_and_failures.2.2.2.1 c8cs
     (fun o => by cases o <;> decide)).mpr ⟨by decide, by decide⟩,
   (c8_dispatch_and_failures.2.2.2.2.1 c8cs []).mpr rfl⟩

theorem auto_marginals_tiles (c : ConstraintSet) (trials : List (List Nat))
    (pt : ProbabilityTable) (h : auto_marginals c trials = .ok pt) :
    pt.tiles = c.sortedUnknown := by
  unfold auto_marginals at h
  by_cases hc : c.unknown_tiles.card ≤ EXACT_THRESHOLD
  · rw [if_pos hc] at h
    exact (exact_marginals_ok c pt h).1
  · rw [if_neg hc] at h
    exact (monte_carlo_ok c trials pt h).1

/-- C2: the end-to-end scenario cannot be replayed by the code.  The
first action Play(south [3|3] 3) succeeds on the game side, but
engine.py feeds game-state Player values into the constraints layer,
whose dict is keyed by the distinct constraints.Player enum: the
observer play leaves the constraint-side hand copy unshrunk (so the two
hand copies already disagree, which verify_consistency would reject),
and the second action Pass(west) raises an uncaught KeyError inside
ConstraintSet.apply_pass, so the claimed final state — and every later
fact of the claim — is unreachable.  (Building the actions from the
constraints enum instead fails even earlier, with WrongTurn in the game
state machine.) -/
theorem c2_scenario_key_error :
    ∃ s1, (OracleState.initial c2hand).bind
        (fun s => s.apply_action (.play .south (T 3 3 (by decide)) 3)) =
        .ok s1 ∧
      s1.game.my_hand ≠ s1.constraints.my_hand ∧
      (∀ o : Opp, (s1.constraints.pc o).tiles_remaining = 7) ∧
      s1.apply_action (.pass .west) = .error .keyError ∧
      c2res = .error .keyError := by
  have hc2 : c2res = .error .keyError := by
    have k0 : (match c2res with
        | .error e => decide (e = GameErr.keyError)
        | .ok _ => false) = true := by decide
    cases hc : c2res with
    | ok s =>
        rw [hc] at k0
        exact Bool.noConfusion k0
    | error e =>
        rw [hc] at k0
        rw [of_decide_eq_true k0]
  have key : (((OracleState.initial c2hand).bind
      (fun s => s.apply_action (.play .south (T 3 3 (by decide)) 3))).map
      (fun s1 => decide (s1.game.my_hand ≠ s1.constraints.my_hand) &&
        decide (∀ o ∈ OPPONENTS,
          (s1.constraints.pc o).tiles_remaining = 7) &&
        (match s1.apply_action (.pass .west) with
         | .error e => decide (e = GameErr.keyError)
         | .ok _ => false))).toOption = some true := by decide
  cases hr : (OracleState.initial c2hand).bind
      (fun s => s.apply_action (.play .south (T 3 3 (by decide)) 3)) with
  | error e =>
      rw [hr] at key
      exact absurd key (by simp [Except.map, Except.toOption])
  | ok s1 =>
      rw [hr] at key
      simp only [Except.map, Except.toOption, Option.some.injEq,
        Bool.and_eq_true] at key
      obtain ⟨⟨k1, k2⟩, k3⟩ := key
      have hpass : s1.apply_action (.pass .west) = .error .keyError := by
        cases hp : s1.apply_action (.pass .west) with
        | ok s2 =>
            rw [hp] at k3
            exact Bool.noConfusion k3
        | error e =>
            rw [hp] at k3
            rw [of_decide_eq_true k3]
      refine ⟨s1, rfl, of_decide_eq_true k1, ?_, hpass, hc2⟩
      have hall := of_decide_eq_true k2
      intro o
      cases o
      · exact hall .west (by decide)
      · exact hall .north (by decide)
      · exact hall .east (by decide)

end Domino
